import Mathlib

/-!
Verification development for the membership-cache subsystem of the
chrome-bookmarks-check repository: the Bloom filter
(`src/utils/bloom-filter.ts`), its base64 serialization, the bookmark cache
service (`BookmarkCacheService`: lifecycle, pending-addition queue, cache
validation) and the URL normalizer (`normalizeUrl`).

Modelling conventions:
* JavaScript strings are lists of UTF-16 code units (`List Nat`).
* JavaScript 32-bit integer operations (`<<`, `>>>`, `&`, `|`, `^`,
  `Math.imul`, `x & x` truncation) are arithmetic modulo `2 ^ 32` on `Nat`;
  a value `v < 2 ^ 32` stands for the signed 32-bit integer `v` when
  `v < 2 ^ 31` and for `v - 2 ^ 32` otherwise, so `Math.abs` of a signed
  value is `jsAbs32` below.
* `Uint8Array` is `List Nat` of byte values; an out-of-range indexed write
  is dropped and an out-of-range read yields 0 in the bitwise tests, exactly
  as in JavaScript (`undefined & m` is `0`).
-/

namespace BookmarksCheck

/-- One step of `BloomFilter.hash`:
`hash = ((hash << 5) - hash) + item.charCodeAt(i); hash = hash & hash;`.
In the unsigned representation the wrapped signed result is
`(31 * h + c) % 2 ^ 32`. -/
def hashStep (h c : Nat) : Nat := (31 * h + c) % 2 ^ 32

/-- JavaScript `Math.abs` applied to the signed reading of a 32-bit value. -/
def jsAbs32 (v : Nat) : Nat := if v < 2 ^ 31 then v else 2 ^ 32 - v

/-- JavaScript `Math.imul`, in the unsigned representation. -/
def imul32 (a b : Nat) : Nat := a * b % 2 ^ 32

/-- `(k << r) | (k >>> (32 - r))`: rotate a 32-bit value left by `r`. -/
def rotl32 (v r : Nat) : Nat := v * 2 ^ r % 2 ^ 32 ||| v / 2 ^ (32 - r)

/-- `BloomFilter.hash(item, seed)` before the final `Math.abs`/`% size`:
the rolling hash over the code units. -/
def jsHashRaw (item : List Nat) (seed : Nat) : Nat := item.foldl hashStep seed

/-- `BloomFilter.hash(item, seed)`: rolling 32-bit hash, then
`Math.abs(hash) % this.size`. -/
def jsHash (size : Nat) (item : List Nat) (seed : Nat) : Nat :=
  jsAbs32 (jsHashRaw item seed) % size

/-- Per-character step of `BloomFilter.murmurHash` (body of the `for` loop). -/
def murmurStep (h c : Nat) : Nat :=
  let k1 := imul32 c 0xcc9e2d51
  let k2 := rotl32 k1 15
  let k3 := imul32 k2 0x1b873593
  let h1 := h ^^^ k3
  let h2 := rotl32 h1 13
  (imul32 h2 5 + 0xe6546b64) % 2 ^ 32

/-- Final avalanche of `BloomFilter.murmurHash` (after the loop). -/
def murmurFinish (len h : Nat) : Nat :=
  let h1 := h ^^^ len % 2 ^ 32
  let h2 := h1 ^^^ h1 / 2 ^ 16
  let h3 := imul32 h2 0x85ebca6b
  let h4 := h3 ^^^ h3 / 2 ^ 13
  let h5 := imul32 h4 0xc2b2ae35
  h5 ^^^ h5 / 2 ^ 16

/-- `BloomFilter.murmurHash(item, seed)`. -/
def murmurHash (size : Nat) (item : List Nat) (seed : Nat) : Nat :=
  jsAbs32 (murmurFinish item.length (item.foldl murmurStep seed)) % size

/-- The mutable state of a `BloomFilter` instance: bit-array size in bits,
number of hash functions, the byte array backing the bits, and the counter
incremented by `add`. -/
structure BloomFilter where
  size : Nat
  hashCount : Nat
  bitArray : List Nat
  itemCount : Nat
deriving DecidableEq

/-- The constructor `new BloomFilter(expectedItems, falsePositiveRate)`
derives the bit count `m` and hash count `k` with floating-point logarithms
(`calculateOptimalSize` / `calculateOptimalHashCount`); that floating-point
computation is abstracted by taking the resulting pair `m`, `k` as
parameters. The constructor then allocates a zeroed `Uint8Array` of
`Math.ceil(m / 8)` bytes and starts `itemCount` at 0. -/
def BloomFilter.mk0 (m k : Nat) : BloomFilter :=
  { size := m, hashCount := k,
    bitArray := List.replicate ((m + 7) / 8) 0, itemCount := 0 }

/-- `BloomFilter.getHashPositions(item)`: double hashing,
`position_i = (hash1 + i * hash2) % size` for `i < hashCount`. -/
def BloomFilter.getHashPositions (f : BloomFilter) (item : List Nat) : List Nat :=
  let hash1 := jsHash f.size item 0
  let hash2 := murmurHash f.size item 1
  (List.range f.hashCount).map fun i => (hash1 + i * hash2) % f.size

/-- One iteration of the loop in `BloomFilter.add`:
`bitArray[byteIndex] |= (1 << bitIndex)` with `byteIndex = ⌊position / 8⌋`,
`bitIndex = position % 8`. A write past the end of a `Uint8Array` is
dropped, which `List.set` also does. -/
def setBitByte (arr : List Nat) (position : Nat) : List Nat :=
  arr.set (position / 8) (arr.getD (position / 8) 0 ||| 1 <<< (position % 8))

/-- `BloomFilter.add(item)`: set the bit at every hash position, then
`itemCount++` (unconditionally). -/
def BloomFilter.add (f : BloomFilter) (item : List Nat) : BloomFilter :=
  { f with bitArray := (f.getHashPositions item).foldl setBitByte f.bitArray,
           itemCount := f.itemCount + 1 }

/-- `BloomFilter.addMany(items)`. -/
def BloomFilter.addMany (f : BloomFilter) (items : List (List Nat)) : BloomFilter :=
  items.foldl BloomFilter.add f

/-- The bit test in `BloomFilter.contains`:
`(bitArray[byteIndex] & (1 << bitIndex)) === 0` means absent; reading past
the end of a `Uint8Array` gives `undefined`, and `undefined & m` is 0. -/
def testBitByte (arr : List Nat) (position : Nat) : Bool :=
  arr.getD (position / 8) 0 &&& 1 <<< (position % 8) != 0

/-- `BloomFilter.contains(item)`: false as soon as one hash position has an
unset bit, true when every position's bit is set. -/
def BloomFilter.contains (f : BloomFilter) (item : List Nat) : Bool :=
  (f.getHashPositions item).all fun position => testBitByte f.bitArray position

/-- The integer fields of the record returned by `BloomFilter.getStats`.
The remaining field, `estimatedFalsePositiveRate`, is the floating-point
value `(1 - exp(-hashCount * itemCount / size)) ^ hashCount`, a function of
the three integer fields `size`, `hashCount`, `itemCount` below. -/
structure BloomStats where
  size : Nat
  hashCount : Nat
  itemCount : Nat
  sizeInBytes : Nat
deriving DecidableEq

/-- `BloomFilter.getStats()` (without the derived floating-point rate, see
`BloomStats`). -/
def BloomFilter.getStats (f : BloomFilter) : BloomStats :=
  { size := f.size, hashCount := f.hashCount, itemCount := f.itemCount,
    sizeInBytes := f.bitArray.length }

/-- Well-formedness as established by the constructor: at least one bit, and
the byte array has exactly `Math.ceil(size / 8)` entries. -/
def BloomFilter.WF (f : BloomFilter) : Prop :=
  1 ≤ f.size ∧ f.bitArray.length = (f.size + 7) / 8

instance (f : BloomFilter) : Decidable f.WF := by unfold BloomFilter.WF; infer_instance

/-- The bits contributed to byte `j` by the in-range positions of `ps`
(bits aimed past the end of a `len`-byte array are dropped). -/
def byteMask (len : Nat) (ps : List Nat) (j : Nat) : Nat :=
  ps.foldr (fun p m => if p / 8 = j ∧ p / 8 < len then 2 ^ (p % 8) ||| m else m) 0

/-! ### Base64: the platform `btoa`/`atob` pair used by `serialize` and
`deserialize`, modelled on char-code lists (standard alphabet, `=` = 61
padding) -/

/-- Char code of the base64 alphabet entry at index `s` (`A-Z a-z 0-9 + /`). -/
def b64chr (s : Nat) : Nat :=
  if s < 26 then 65 + s
  else if s < 52 then 97 + (s - 26)
  else if s < 62 then 48 + (s - 52)
  else if s = 62 then 43
  else 47

/-- Index of an alphabet char code (inverse of `b64chr` on the alphabet). -/
def b64val (c : Nat) : Nat :=
  if 65 ≤ c ∧ c ≤ 90 then c - 65
  else if 97 ≤ c ∧ c ≤ 122 then c - 97 + 26
  else if 48 ≤ c ∧ c ≤ 57 then c - 48 + 52
  else if c = 43 then 62
  else if c = 47 then 63
  else 0

/-- `btoa`: encode bytes three at a time into four alphabet chars, padding a
final 1- or 2-byte group with `=`. -/
def b64encode : List Nat → List Nat
  | [] => []
  | [a] => [b64chr (a / 4), b64chr (a % 4 * 16), 61, 61]
  | [a, b] => [b64chr (a / 4), b64chr (a % 4 * 16 + b / 16), b64chr (b % 16 * 4), 61]
  | a :: b :: c :: rest =>
    b64chr (a / 4) :: b64chr (a % 4 * 16 + b / 16) :: b64chr (b % 16 * 4 + c / 64) ::
      b64chr (c % 64) :: b64encode rest

/-- `atob`: decode four chars at a time back into three bytes, honouring the
`=` padding. -/
def b64decode : List Nat → List Nat
  | c0 :: c1 :: c2 :: c3 :: rest =>
    if c2 = 61 then [b64val c0 * 4 + b64val c1 / 16]
    else if c3 = 61 then
      [b64val c0 * 4 + b64val c1 / 16, b64val c1 % 16 * 16 + b64val c2 / 4]
    else
      (b64val c0 * 4 + b64val c1 / 16) :: (b64val c1 % 16 * 16 + b64val c2 / 4) ::
        (b64val c2 % 4 * 64 + b64val c3) :: b64decode rest
  | _ => []

/-! ### `serialize` / `deserialize` -/

/-- The four little-endian bytes of a 32-bit word, as obtained by viewing a
`Uint32Array` buffer as a `Uint8Array`. -/
def u32le (n : Nat) : List Nat :=
  [n % 256, n / 256 % 256, n / 65536 % 256, n / 16777216 % 256]

/-- Read a 32-bit little-endian word at byte offset `off`. -/
def readU32 (bytes : List Nat) (off : Nat) : Nat :=
  bytes.getD off 0 + 256 * bytes.getD (off + 1) 0 +
    65536 * bytes.getD (off + 2) 0 + 16777216 * bytes.getD (off + 3) 0

/-- `BloomFilter.serialize()`: the metadata `(size, hashCount, itemCount)` as
a 3-word `Uint32Array` viewed as 12 bytes, followed by the raw bit-array
bytes, passed through `String.fromCharCode` (identity on byte values) and
`btoa`. -/
def BloomFilter.serialize (f : BloomFilter) : List Nat :=
  b64encode (u32le f.size ++ u32le f.hashCount ++ u32le f.itemCount ++ f.bitArray)

/-- `BloomFilter.deserialize(data)`: `atob`, read the first 12 bytes as the
three 32-bit metadata words and keep the remaining bytes as the bit array
(the source allocates `new BloomFilter()` and then overwrites all four
fields, which is what this record literal does). -/
def BloomFilter.deserialize (data : List Nat) : BloomFilter :=
  let bytes := b64decode data
  { size := readU32 bytes 0, hashCount := readU32 bytes 4,
    itemCount := readU32 bytes 8, bitArray := bytes.drop 12 }

/-! ### `BookmarkCacheService` (the guarded version, `src/unnamed/part_001`
lines 1-677)

The normalization function `this.normalizeUrl` (under the settings loaded by
`loadUrlMatchSettings`) is passed to each operation as a parameter `norm`;
the service-level properties below hold for every normalization function.
JavaScript `Set`/`Map` of strings are lists with value equality:
`Set.has` is list membership, `Set.add` appends when absent, `Map.set`
overwrites in place or appends. -/

/-- A JavaScript string value: its list of UTF-16 code units. -/
abbrev JStr := List Nat

/-- `chrome.bookmarks.BookmarkTreeNode`, restricted to what
`extractUrlsFromTree` reads: the optional `url` and the children. -/
inductive BookmarkNode where
  | node (url : Option JStr) (children : List BookmarkNode)

/-- The `metadata` object of the service / of a stored record. -/
structure CacheMetadata where
  version : Int
  bookmarkCount : Nat
  lastUpdated : Int
deriving DecidableEq

/-- A persisted `BookmarkCache` record. `bloomFilterData` is the byte view
of the stored buffer (`TextEncoder`/`TextDecoder` round the base64
character codes through unchanged). -/
structure BookmarkCache where
  bloomFilterData : List Nat
  urlSet : List JStr
  metadata : CacheMetadata
deriving DecidableEq

/-- The in-memory fields of `BookmarkCacheService` that the modelled
operations touch (the debounce timer ids only schedule `saveCache` /
`fullRebuild` callbacks and hold no cache data). -/
structure CacheState where
  bloomFilter : Option BloomFilter
  urlSet : List JStr
  urlMap : List (JStr × JStr)
  metadata : CacheMetadata
  isBuilding : Bool
  isInitializing : Bool
  pendingAdditions : List JStr

/-- The field initializers of the private constructor. -/
def initialCacheState : CacheState :=
  { bloomFilter := none, urlSet := [], urlMap := [],
    metadata := { version := 1, bookmarkCount := 0, lastUpdated := 0 },
    isBuilding := false, isInitializing := false, pendingAdditions := [] }

/-- `onBookmarkAdded(url)`: while initializing or building, the raw URL goes
to `pendingAdditions` and nothing else changes; otherwise, when the
normalized URL is truthy (non-empty) and not yet in the exact set, it is
added to `urlSet`, `urlMap` and the filter, and the metadata count and
timestamp are bumped (`debouncedSave` only schedules persistence). -/
def onBookmarkAdded (norm : JStr → JStr) (now : Int) (st : CacheState)
    (url : JStr) : CacheState :=
  if st.isInitializing || st.isBuilding then
    { st with pendingAdditions := st.pendingAdditions ++ [url] }
  else if norm url ≠ [] ∧ norm url ∉ st.urlSet then
    { st with
      urlSet := st.urlSet ++ [norm url],
      urlMap :=
        if (st.urlMap.map Prod.fst).contains (norm url) then
          st.urlMap.map fun e => if e.1 = norm url then (norm url, url) else e
        else st.urlMap ++ [(norm url, url)],
      bloomFilter := (st.bloomFilter.map fun f => f.add (norm url)),
      metadata := { st.metadata with
        bookmarkCount := st.metadata.bookmarkCount + 1, lastUpdated := now } }
  else st

/-- The `traverse` closure of `extractUrlsFromTree`: visit the node's own
URL (skipping falsy normalization results, keeping the first original URL
per normalized key), then recurse into the children. -/
def traverseNode (norm : JStr → JStr) :
    List JStr × List (JStr × JStr) → BookmarkNode → List JStr × List (JStr × JStr)
  | acc, .node url children =>
    let acc1 := match url with
      | some u =>
        let normalizedUrl := norm u
        if normalizedUrl ≠ [] then
          (if acc.1.contains normalizedUrl then acc.1 else acc.1 ++ [normalizedUrl],
           if (acc.2.map Prod.fst).contains normalizedUrl then acc.2
           else acc.2 ++ [(normalizedUrl, u)])
        else acc
      | none => acc
    children.attach.foldl (fun a c => traverseNode norm a c.1) acc1
termination_by _ n => n
decreasing_by
  have h := List.sizeOf_lt_of_mem c.2
  simp only [BookmarkNode.node.sizeOf_spec]
  omega

/-- `extractUrlsFromTree(nodes)`. -/
def extractUrlsFromTree (norm : JStr → JStr) (nodes : List BookmarkNode) :
    List JStr × List (JStr × JStr) :=
  nodes.foldl (traverseNode norm) ([], [])

/-- `fullRebuild()` as a state transformation: guarded by `isBuilding`,
otherwise extract the normalized URL set and map from the `tree` snapshot
(`chrome.bookmarks.getTree()`), pour the set into a fresh filter — the
floating-point sizing of `new BloomFilter(urlSet.size + 10000, 0.001)` is
abstracted by the parameters `m`, `k` of `BloomFilter.mk0` — replace the
in-memory structures and metadata, persist (`saveCache` does not change the
in-memory fields), and clear `isBuilding` in the `finally`. -/
def fullRebuild (norm : JStr → JStr) (m k : Nat) (now : Int)
    (tree : List BookmarkNode) (st : CacheState) : CacheState :=
  if st.isBuilding then st
  else
    { st with
      bloomFilter := some ((extractUrlsFromTree norm tree).1.foldl BloomFilter.add
        (BloomFilter.mk0 m k)),
      urlSet := (extractUrlsFromTree norm tree).1,
      urlMap := (extractUrlsFromTree norm tree).2,
      metadata :=
        { version := 1,
          bookmarkCount := (extractUrlsFromTree norm tree).1.length,
          lastUpdated := now },
      isBuilding := false }

/-- `isValidCache(cache)`: version must equal 1, age at most 7 days, and the
data-integrity check; `cache.bloomFilterData` and `cache.urlSet` are object
references (always truthy), so its live part is `urlSet.size === 0`. -/
def isValidCache (now : Int) (cache : BookmarkCache) : Bool :=
  if cache.metadata.version ≠ 1 then false
  else if now - cache.metadata.lastUpdated > 7 * 24 * 60 * 60 * 1000 then false
  else if cache.urlSet.length = 0 then false
  else true

/-- `loadCacheToMemory(cache)`: deserialize the stored filter, adopt the
stored exact set and metadata, clear `urlMap` (it is rebuilt separately). -/
def loadCacheToMemory (cache : BookmarkCache) (st : CacheState) : CacheState :=
  { st with
    bloomFilter := some (BloomFilter.deserialize cache.bloomFilterData),
    urlSet := cache.urlSet,
    urlMap := [],
    metadata := cache.metadata }

/-- `buildUrlMap()`: refresh only `urlMap` from a fresh tree snapshot. -/
def buildUrlMap (norm : JStr → JStr) (tree : List BookmarkNode)
    (st : CacheState) : CacheState :=
  { st with urlMap := (extractUrlsFromTree norm tree).2 }

/-- The body of `initialize()` after the guard is raised: attempt to load
the stored record; a valid one is loaded into memory and the reverse map is
rebuilt from a fresh tree snapshot; otherwise `isInitializing` is cleared
first and a full rebuild runs. -/
def initStep2 (norm : JStr → JStr) (m k : Nat) (now : Int)
    (loadResult : Option BookmarkCache) (tree : List BookmarkNode)
    (st2 : CacheState) : CacheState :=
  match loadResult with
  | some cache =>
    if isValidCache now cache then
      buildUrlMap norm tree (loadCacheToMemory cache st2)
    else fullRebuild norm m k now tree { st2 with isInitializing := false }
  | none => fullRebuild norm m k now tree { st2 with isInitializing := false }

/-- The `finally` block of `initialize()`: clear `isInitializing`, replay
`pendingAdditions` through `onBookmarkAdded` (JavaScript `forEach` does not
visit entries appended during the walk), then empty the queue. -/
def initFinally (norm : JStr → JStr) (now : Int) (st3 : CacheState) : CacheState :=
  { ((({ st3 with isInitializing := false } : CacheState).pendingAdditions).foldl
      (onBookmarkAdded norm now) { st3 with isInitializing := false }) with
    pendingAdditions := [] }

/-- `initialize()` (`src/unnamed/part_001:55`), as a function of its
environment: `loadResult` is the value of `StorageService.loadCache()`,
`tree` the bookmark-tree snapshot, and `events` the URLs the `onCreated`
listener delivers to `onBookmarkAdded` while `isInitializing` is true (the
model folds them in right after the guard is raised; every suspension point
inside the guarded window queues them identically). The listener setup and
`loadUrlMatchSettings` come first (`norm` reflects the loaded settings),
then the guard is raised and the queue cleared, then the body
(`initStep2`) and the `finally` block (`initFinally`) run. -/
def initializeService (norm : JStr → JStr) (m k : Nat) (now : Int)
    (loadResult : Option BookmarkCache) (tree : List BookmarkNode)
    (events : List JStr) (st0 : CacheState) : CacheState :=
  initFinally norm now (initStep2 norm m k now loadResult tree
    (events.foldl (onBookmarkAdded norm now)
      { st0 with isInitializing := true, pendingAdditions := [] }))

/-- The cache invariant of C4: whenever the filter object is present it is
well-formed and answers `contains = true` for every member of the
exact-match set. -/
def SupersetInv (st : CacheState) : Prop :=
  ∀ f, st.bloomFilter = some f → f.WF ∧ ∀ u ∈ st.urlSet, f.contains u = true

/-! ### The URL normalizer (`normalizeUrl`, `src/unnamed/part_001:356`)

`normalizeUrl` is built on the host platform's WHATWG URL machinery
(`new URL`, the `protocol` / `hash` / `pathname` / `hostname` / `port`
setters, `toString`), which is not part of this repository. Modelled from
the spec: §4.2 describes the parse into scheme/host/path/query/fragment and
the per-flag steps. The platform parser is modelled faithfully on a
restricted fragment of URL strings — `http`/`https` URLs whose host is
non-empty lowercase ASCII `[a-z0-9.-]`, whose optional explicit port is an
at-most-five-digit decimal, whose path segments use
`[A-Za-z0-9._~-]` and are not `.` or `..`, and whose query/fragment use
those characters plus `/ = &` — together with colon-free ASCII strings, on
which `new URL` throws. On that fragment the model parser agrees with the
platform parser (no percent-encoding, whitespace stripping, case folding or
dot-segment resolution applies there); theorems hypothesise membership in
the fragment. Characters are ASCII code points: `/`=47, `?`=63, `#`=35,
`:`=58, `.`=46, `=`=61, `&`=38. -/

/-- ASCII lower-casing, the restriction of `toLowerCase` to ASCII. -/
def lowerChar (c : Nat) : Nat := if 65 ≤ c ∧ c ≤ 90 then c + 32 else c

/-- `toLowerCase` on an ASCII string. -/
def lowerStr (s : JStr) : JStr := s.map lowerChar

/-- `url.replace(/\/+$/, '')`: strip every trailing slash. -/
def stripTrailingSlashes (s : JStr) : JStr :=
  (s.reverse.dropWhile (fun c => decide (c = 47))).reverse

/-- `endsWith('/')`. -/
def endsSlash (s : JStr) : Bool := decide (s.getLast? = some 47)

/-- Strip the literal prefix `p` from `s` (`none` when `s` does not start
with `p`). -/
def dropPref : JStr → JStr → Option JStr
  | [], s => some s
  | _ :: _, [] => none
  | p :: ps, c :: cs => if c = p then dropPref ps cs else none

def isDigit (c : Nat) : Bool := decide (48 ≤ c ∧ c ≤ 57)

/-- Host characters of the modelled fragment: `[a-z0-9.-]`. -/
def isHostChar (c : Nat) : Bool :=
  decide (97 ≤ c ∧ c ≤ 122) || isDigit c || decide (c = 46) || decide (c = 45)

/-- Path-segment characters of the modelled fragment: `[A-Za-z0-9._~-]`. -/
def isPathChar (c : Nat) : Bool :=
  decide (65 ≤ c ∧ c ≤ 90) || decide (97 ≤ c ∧ c ≤ 122) || isDigit c ||
    decide (c = 46) || decide (c = 45) || decide (c = 95) || decide (c = 126)

/-- Query/fragment characters of the modelled fragment. -/
def isQFChar (c : Nat) : Bool :=
  isPathChar c || decide (c = 47) || decide (c = 61) || decide (c = 38)

/-- Fuelled decimal printer (structural recursion, so that `decide` can
evaluate it). -/
def natToDecFuel : Nat → Nat → JStr
  | 0, _ => []
  | fuel + 1, n =>
    if n < 10 then [48 + n] else natToDecFuel fuel (n / 10) ++ [48 + n % 10]

/-- Decimal digits of `n` (char codes), as the platform serializes a port. -/
def natToDec (n : Nat) : JStr := natToDecFuel (n + 1) n

/-- Decimal parse (on digit strings). -/
def decToNat (s : JStr) : Nat := s.foldl (fun a c => a * 10 + (c - 48)) 0

/-- The components of a parsed WHATWG URL in the modelled fragment. -/
structure JsUrl where
  scheme : JStr
  host : JStr
  port : Option Nat
  path : List JStr
  query : Option JStr
  frag : Option JStr
deriving DecidableEq

def schemeHttp : JStr := [104, 116, 116, 112, 58]

def schemeHttps : JStr := [104, 116, 116, 112, 115, 58]

def httpPref : JStr := [104, 116, 116, 112, 58, 47, 47]

def httpsPref : JStr := [104, 116, 116, 112, 115, 58, 47, 47]

/-- End of the authority section: `/`, `?` or `#`. -/
def isAuthEnd (c : Nat) : Bool := decide (c = 47) || decide (c = 63) || decide (c = 35)

/-- Parse `host[:port]`; the platform parser rejects an empty host for
special schemes, drops an explicit default port, keeps a colon with no
digits as "no port", and rejects ports above 65535. -/
def parseAuthority (auth : JStr) (defaultPort : Nat) : Option (JStr × Option Nat) :=
  let host := auth.takeWhile fun c => decide (c ≠ 58)
  let rest := auth.dropWhile fun c => decide (c ≠ 58)
  if host = [] then none
  else if host.all isHostChar = false then none
  else match rest with
    | [] => some (host, none)
    | _ :: ds =>
      if ds = [] then some (host, none)
      else if ds.all isDigit = false then none
      else if decToNat ds > 65535 then none
      else if decToNat ds = defaultPort then some (host, none)
      else some (host, some (decToNat ds))

/-- Split on `/` (the path-segment structure of the path string after its
leading slash). -/
def splitOnSlash : JStr → List JStr
  | [] => [[]]
  | c :: cs =>
    if c = 47 then [] :: splitOnSlash cs
    else match splitOnSlash cs with
      | [] => [[c]]
      | s :: ss => (c :: s) :: ss

def dotSeg : JStr := [46]

def dotdotSeg : JStr := [46, 46]

/-- A segment lies in the modelled fragment: fragment charset and not a dot
segment (the platform parser resolves `.`/`..`, which the fragment
excludes). -/
def segOk (s : JStr) : Bool :=
  s.all isPathChar && decide (s ≠ dotSeg) && decide (s ≠ dotdotSeg)

/-- Parse the raw path portion (empty, or a leading `/` followed by
segments). -/
def parsePath (pathRaw : JStr) : Option (List JStr) :=
  match pathRaw with
  | [] => some [[]]
  | c :: cs =>
    if c = 47 then
      if (splitOnSlash cs).all segOk then some (splitOnSlash cs) else none
    else none

/-- Parse the query/fragment portion (starting at `?` or `#` or empty). -/
def parseQF (rest : JStr) : Option (Option JStr × Option JStr) :=
  match rest with
  | [] => some (none, none)
  | c :: cs =>
    if c = 63 then
      if (cs.takeWhile fun d => decide (d ≠ 35)).all isQFChar = false then none
      else match cs.dropWhile fun d => decide (d ≠ 35) with
        | [] => some (some (cs.takeWhile fun d => decide (d ≠ 35)), none)
        | _ :: fs =>
          if fs.all isQFChar then
            some (some (cs.takeWhile fun d => decide (d ≠ 35)), some fs)
          else none
    else if c = 35 then
      if cs.all isQFChar then some (none, some cs) else none
    else none

def parseAfterScheme (scheme : JStr) (defaultPort : Nat) (rest : JStr) :
    Option JsUrl :=
  match parseAuthority (rest.takeWhile fun c => !isAuthEnd c) defaultPort with
  | none => none
  | some (host, port) =>
    match parsePath ((rest.dropWhile fun c => !isAuthEnd c).takeWhile fun c =>
        decide (c ≠ 63) && decide (c ≠ 35)) with
    | none => none
    | some path =>
      match parseQF ((rest.dropWhile fun c => !isAuthEnd c).dropWhile fun c =>
          decide (c ≠ 63) && decide (c ≠ 35)) with
      | none => none
      | some (q, fr) =>
        some { scheme := scheme, host := host, port := port, path := path,
               query := q, frag := fr }

/-- The model of `new URL(s)` on the fragment: `none` both for strings the
platform parser rejects (no scheme — in the fragment, colon-free strings)
and for strings outside the modelled fragment; `InFragment` below keeps the
two apart. -/
def parseUrl (s : JStr) : Option JsUrl :=
  match dropPref httpPref s with
  | some rest => parseAfterScheme schemeHttp 80 rest
  | none =>
    match dropPref httpsPref s with
    | some rest => parseAfterScheme schemeHttps 443 rest
    | none => none

def serializePort : Option Nat → JStr
  | none => []
  | some n => 58 :: natToDec n

def serializePath (path : List JStr) : JStr :=
  (path.map fun s => 47 :: s).flatten

def serializeQF (pre : Nat) : Option JStr → JStr
  | none => []
  | some q => pre :: q

/-- `toString()` of a parsed URL. -/
def serializeUrl (u : JsUrl) : JStr :=
  u.scheme ++ ([47, 47] ++ (u.host ++ (serializePort u.port ++
    (serializePath u.path ++ (serializeQF 63 u.query ++ serializeQF 35 u.frag)))))

/-- Well-formedness of a `JsUrl` record, as produced by `parseUrl` on the
fragment. -/
def WFUrl (u : JsUrl) : Prop :=
  (u.scheme = schemeHttp ∨ u.scheme = schemeHttps) ∧
    u.host ≠ [] ∧ u.host.all isHostChar = true ∧
    (∀ n, u.port = some n → n ≤ 65535 ∧
      n ≠ (if u.scheme = schemeHttp then 80 else 443)) ∧
    u.path ≠ [] ∧ (∀ s ∈ u.path, segOk s = true) ∧
    (∀ q, u.query = some q → q.all isQFChar = true) ∧
    (∀ f, u.frag = some f → f.all isQFChar = true)

/-! ### The `normalizeUrl` pipeline -/

/-- `urlMatchSettings`. -/
structure UrlMatchSettings where
  ignoreProtocol : Bool
  ignoreTrailingSlash : Bool
  ignoreCase : Bool
  ignoreWww : Bool
  ignoreHash : Bool
  ignoreDiscoursePostNumber : Bool
deriving DecidableEq

/-- Step 1: `if (ignoreTrailingSlash) workingUrl = workingUrl.replace(/\/+$/, '')`. -/
def preStrip (st : UrlMatchSettings) (url : JStr) : JStr :=
  if st.ignoreTrailingSlash then stripTrailingSlashes url else url

/-- Step 2: `if (ignoreProtocol && urlObj.protocol === 'http:')
urlObj.protocol = 'https:'`. -/
def stepProtocol (st : UrlMatchSettings) (u : JsUrl) : JsUrl :=
  if st.ignoreProtocol ∧ u.scheme = schemeHttp then { u with scheme := schemeHttps }
  else u

/-- Step 3: `if (ignoreHash) urlObj.hash = ''` — assigning the empty string
sets the fragment to null. -/
def stepHash (st : UrlMatchSettings) (u : JsUrl) : JsUrl :=
  if st.ignoreHash then { u with frag := none } else u

/-- `"/t/topic/"`. -/
def tTopicSlash : JStr := [47, 116, 47, 116, 111, 112, 105, 99, 47]

/-- `pat` is a prefix of `s`. -/
def isPrefOf (pat s : JStr) : Bool := (dropPref pat s).isSome

/-- `String.includes(pat)`. -/
def containsSub (pat : JStr) : JStr → Bool
  | [] => decide (pat = [])
  | c :: cs => isPrefOf pat (c :: cs) || containsSub pat cs

/-- The test `/\/t\/topic\/(\d+)\/(\d+)\/?$/.test(pathname)`: working from
the end — an optional slash, a non-empty digit run, a slash, a non-empty
digit run, then the literal `/t/topic/` (whose reverse minus the final
slash is `cipot/t/`). -/
def discourseTest (p : JStr) : Bool :=
  let r := if p.reverse.headD 0 = 47 then p.reverse.tail else p.reverse
  if r.takeWhile isDigit = [] then false
  else match r.dropWhile isDigit with
    | 47 :: r3 =>
      if r3.takeWhile isDigit = [] then false
      else isPrefOf [99, 105, 112, 111, 116, 47, 116, 47] (r3.dropWhile isDigit)
    | _ => false

/-- The replace `pathname.replace(/\/(\d+)\/?$/, '')`: strip a trailing
`/<digits>` with optional final slash. -/
def stripLastNumSeg (p : JStr) : JStr :=
  let r := if p.reverse.headD 0 = 47 then p.reverse.tail else p.reverse
  if r.takeWhile isDigit = [] then p
  else match r.dropWhile isDigit with
    | 47 :: r3 => r3.reverse
    | _ => p

/-- The `pathname` setter: re-parse the assigned path string (for strings
outside the path grammar the original path is kept; the pipeline only
assigns strings produced from a parsed path). -/
def setPathname (u : JsUrl) (v : JStr) : JsUrl :=
  { u with path := (parsePath v).getD u.path }

/-- The Discourse step: `includes('/t/topic/')` filter, then the strict
pattern test, then the strip-and-reassign. -/
def stepDiscourse (st : UrlMatchSettings) (u : JsUrl) : JsUrl :=
  if st.ignoreDiscoursePostNumber then
    if containsSub tTopicSlash (serializePath u.path) then
      if discourseTest (serializePath u.path) then
        setPathname u (stripLastNumSeg (serializePath u.path))
      else u
    else u
  else u

/-- `"www."`. -/
def wwwPref : JStr := [119, 119, 119, 46]

/-- `hostname.replace(/^www\./, '')` — one leading `www.` stripped. -/
def stripWww (h : JStr) : JStr :=
  match dropPref wwwPref h with
  | some rest => rest
  | none => h

/-- The `hostname` setter: assigning an empty host to a special-scheme URL
is a no-op in the platform parser. -/
def setHostname (u : JsUrl) (h : JStr) : JsUrl :=
  if h = [] then u else { u with host := h }

/-- Step 5: `if (ignoreWww) urlObj.hostname = hostname.replace(/^www\./, '')`. -/
def stepWww (st : UrlMatchSettings) (u : JsUrl) : JsUrl :=
  if st.ignoreWww then setHostname u (stripWww u.host) else u

/-- The `port` getter: `''` when no port, else the decimal digits. -/
def portStr : Option Nat → JStr
  | none => []
  | some n => natToDec n

/-- Step 6 (always on): drop an explicit default port — `urlObj.port = ''`
when `(protocol, port)` is `('http:', '80')` or `('https:', '443')`. -/
def dropDefaultPort (u : JsUrl) : JsUrl :=
  if (u.scheme = schemeHttp ∧ portStr u.port = natToDec 80) ∨
      (u.scheme = schemeHttps ∧ portStr u.port = natToDec 443) then
    { u with port := none }
  else u

/-- Steps 2-6 on the parsed URL object, in source order. -/
def transformUrl (st : UrlMatchSettings) (u : JsUrl) : JsUrl :=
  dropDefaultPort (stepWww st (stepDiscourse st (stepHash st (stepProtocol st u))))

/-- The second trailing-slash pass:
`if (ignoreTrailingSlash && normalized.endsWith('/')) normalized =
normalized.slice(0, -1)`. -/
def postSlash (st : UrlMatchSettings) (s : JStr) : JStr :=
  if st.ignoreTrailingSlash ∧ endsSlash s = true then s.dropLast else s

/-- The final whole-string case fold under `ignoreCase`. -/
def caseFold (st : UrlMatchSettings) (s : JStr) : JStr :=
  if st.ignoreCase then lowerStr s else s

/-- `normalizeUrl(url)` (`src/unnamed/part_001:356`): strip trailing
slashes under the policy, parse; on parse failure return the original
string (case-folded under the policy); otherwise apply steps 2-6,
re-serialize, re-strip one trailing slash under the policy, and case-fold. -/
def normalizeUrl (st : UrlMatchSettings) (url : JStr) : JStr :=
  match parseUrl (preStrip st url) with
  | none => caseFold st url
  | some u0 => caseFold st (postSlash st (serializeUrl (transformUrl st u0)))

/-- The modelled fragment: the working URL parses, or the string is
colon-free ASCII (on which the platform `new URL` throws and `toLowerCase`
is the ASCII fold). -/
def inFragmentB (st : UrlMatchSettings) (x : JStr) : Bool :=
  (parseUrl (preStrip st x)).isSome ||
    (decide (58 ∉ x) && x.all fun c => decide (c < 128))

/-- The www-strip is stable on the parsed host: stripping once reaches a
fixed point of `replace(/^www\./, '')` and leaves the host non-empty. -/
def wwwStableB (st : UrlMatchSettings) (x : JStr) : Bool :=
  !st.ignoreWww ||
    match parseUrl (preStrip st x) with
    | some u => decide (stripWww (stripWww u.host) = stripWww u.host) &&
        decide (stripWww u.host ≠ [])
    | none => true

/-! ### Lower-casing a parsed URL -/

/-- The whole-string case fold acts only on path, query and fragment of a
well-formed URL (scheme, host and port serialize to case-fixed
characters). -/
def mapLower (u : JsUrl) : JsUrl :=
  { u with
    path := u.path.map lowerStr
    query := u.query.map lowerStr
    frag := u.frag.map lowerStr }

/-- The serialization of a root URL without the trailing slash. -/
def rootStr (v : JsUrl) : JStr :=
  v.scheme ++ ([47, 47] ++ (v.host ++ serializePort v.port))

theorem mk0_WF (m k : Nat) (hm : 1 ≤ m) : (BloomFilter.mk0 m k).WF := by
  refine ⟨hm, ?_⟩
  simp [BloomFilter.mk0]

/-! ### Bit-level lemmas about the byte array -/

theorem testBitByte_eq (arr : List Nat) (p : Nat) :
    testBitByte arr p = (arr.getD (p / 8) 0).testBit (p % 8) := by
  unfold testBitByte
  rw [Nat.shiftLeft_eq, one_mul, Nat.and_two_pow]
  cases h : (arr.getD (p / 8) 0).testBit (p % 8) <;>
    simp [h, Nat.pow_eq_zero]

theorem getD_eq_getElem? (l : List Nat) (i : Nat) : l.getD i 0 = (l[i]?).getD 0 := by
  simp [List.getD]

theorem getD_set_self (l : List Nat) (i a : Nat) (h : i < l.length) :
    (l.set i a).getD i 0 = a := by
  rw [getD_eq_getElem?, List.getElem?_set_self (by simpa using h)]
  rfl

theorem getD_set_ne (l : List Nat) (i j a : Nat) (h : i ≠ j) :
    (l.set i a).getD j 0 = l.getD j 0 := by
  rw [getD_eq_getElem?, getD_eq_getElem?, List.getElem?_set_ne h]

theorem length_setBitByte (arr : List Nat) (p : Nat) :
    (setBitByte arr p).length = arr.length := by
  simp [setBitByte]

theorem length_foldl_setBitByte (ps : List Nat) (arr : List Nat) :
    (ps.foldl setBitByte arr).length = arr.length := by
  induction ps generalizing arr with
  | nil => rfl
  | cons p ps ih => simp [List.foldl_cons, ih, length_setBitByte]

theorem getD_setBitByte (arr : List Nat) (p j : Nat) :
    (setBitByte arr p).getD j 0 =
      arr.getD j 0 ||| (if p / 8 = j ∧ p / 8 < arr.length then 2 ^ (p % 8) else 0) := by
  by_cases hb : p / 8 < arr.length
  · by_cases hj : p / 8 = j
    · subst hj
      rw [if_pos ⟨rfl, hb⟩]
      unfold setBitByte
      rw [getD_set_self _ _ _ hb, Nat.shiftLeft_eq, one_mul]
    · rw [if_neg (fun hc => hj hc.1), Nat.or_zero]
      exact getD_set_ne _ _ _ _ hj
  · rw [if_neg (fun hc => hb hc.2), Nat.or_zero]
    rw [setBitByte, List.set_eq_of_length_le (Nat.le_of_not_lt hb)]

theorem getD_foldl_setBitByte (ps : List Nat) (arr : List Nat) (j : Nat) :
    (ps.foldl setBitByte arr).getD j 0 = arr.getD j 0 ||| byteMask arr.length ps j := by
  induction ps generalizing arr with
  | nil => simp [byteMask]
  | cons p ps ih =>
    rw [List.foldl_cons, ih, length_setBitByte, getD_setBitByte]
    show _ = arr.getD j 0 ||| (if p / 8 = j ∧ p / 8 < arr.length then
      2 ^ (p % 8) ||| byteMask arr.length ps j else byteMask arr.length ps j)
    by_cases hc : p / 8 = j ∧ p / 8 < arr.length
    · rw [if_pos hc, if_pos hc, Nat.or_assoc]
    · rw [if_neg hc, if_neg hc, Nat.or_zero]

theorem byteMask_testBit_self {p : Nat} {ps : List Nat} (hp : p ∈ ps) (len : Nat)
    (hb : p / 8 < len) : (byteMask len ps (p / 8)).testBit (p % 8) = true := by
  induction ps with
  | nil => cases hp
  | cons q ps ih =>
    rw [byteMask, List.foldr_cons, ← byteMask]
    rcases List.mem_cons.mp hp with rfl | hmem
    · rw [if_pos ⟨rfl, hb⟩, Nat.testBit_lor, Nat.testBit_two_pow_self]
      rfl
    · by_cases hc : q / 8 = p / 8 ∧ q / 8 < len
      · rw [if_pos hc, Nat.testBit_lor, ih hmem, Bool.or_true]
      · rw [if_neg hc]; exact ih hmem

theorem testBitByte_foldl_of_mem {p : Nat} {ps : List Nat} (arr : List Nat)
    (hp : p ∈ ps) (hb : p / 8 < arr.length) :
    testBitByte (ps.foldl setBitByte arr) p = true := by
  rw [testBitByte_eq, getD_foldl_setBitByte, Nat.testBit_lor,
    byteMask_testBit_self hp arr.length hb, Bool.or_true]

theorem testBitByte_foldl_mono {p : Nat} (ps : List Nat) (arr : List Nat)
    (h : testBitByte arr p = true) :
    testBitByte (ps.foldl setBitByte arr) p = true := by
  rw [testBitByte_eq] at h
  rw [testBitByte_eq, getD_foldl_setBitByte, Nat.testBit_lor, h, Bool.true_or]

theorem eq_of_length_getD {l₁ l₂ : List Nat} (hlen : l₁.length = l₂.length)
    (h : ∀ j, l₁.getD j 0 = l₂.getD j 0) : l₁ = l₂ := by
  apply List.ext_getElem?
  intro n
  by_cases hn : n < l₁.length
  · have hn₂ : n < l₂.length := by omega
    have h1 : l₁[n]? = some (l₁.getD n 0) := by
      rw [getD_eq_getElem?, List.getElem?_eq_getElem hn]
      rfl
    have h2 : l₂[n]? = some (l₂.getD n 0) := by
      rw [getD_eq_getElem?, List.getElem?_eq_getElem hn₂]
      rfl
    rw [h1, h2, h n]
  · rw [List.getElem?_eq_none (Nat.le_of_not_lt hn),
      List.getElem?_eq_none (by omega : l₂.length ≤ n)]

theorem foldl_setBitByte_idem (ps : List Nat) (arr : List Nat) :
    ps.foldl setBitByte (ps.foldl setBitByte arr) = ps.foldl setBitByte arr := by
  apply eq_of_length_getD
  · rw [length_foldl_setBitByte, length_foldl_setBitByte]
  · intro j
    rw [getD_foldl_setBitByte, getD_foldl_setBitByte, length_foldl_setBitByte,
      Nat.or_assoc, Nat.or_self]

/-! ### Filter-level lemmas -/

theorem getHashPositions_add (f : BloomFilter) (x y : List Nat) :
    (f.add y).getHashPositions x = f.getHashPositions x := rfl

theorem getHashPositions_lt {f : BloomFilter} (hs : 1 ≤ f.size) (x : List Nat) :
    ∀ p ∈ f.getHashPositions x, p < f.size := by
  intro p hp
  simp only [BloomFilter.getHashPositions, List.mem_map] at hp
  obtain ⟨i, _, rfl⟩ := hp
  exact Nat.mod_lt _ hs

theorem add_WF {f : BloomFilter} (h : f.WF) (x : List Nat) : (f.add x).WF := by
  refine ⟨h.1, ?_⟩
  show ((f.getHashPositions x).foldl setBitByte f.bitArray).length = _
  rw [length_foldl_setBitByte]
  exact h.2

theorem contains_add_self {f : BloomFilter} (h : f.WF) (x : List Nat) :
    (f.add x).contains x = true := by
  unfold BloomFilter.contains
  rw [getHashPositions_add, List.all_eq_true]
  intro p hp
  have hlt := getHashPositions_lt h.1 x p hp
  have hb : p / 8 < f.bitArray.length := by rw [h.2]; omega
  exact testBitByte_foldl_of_mem f.bitArray hp hb

theorem contains_add_mono {f : BloomFilter} (x y : List Nat)
    (h : f.contains x = true) : (f.add y).contains x = true := by
  unfold BloomFilter.contains at h ⊢
  rw [getHashPositions_add, List.all_eq_true]
  rw [List.all_eq_true] at h
  intro p hp
  exact testBitByte_foldl_mono _ _ (h p hp)

theorem contains_addMany_mono {f : BloomFilter} (x : List Nat) (ys : List (List Nat))
    (h : f.contains x = true) : (f.addMany ys).contains x = true := by
  induction ys generalizing f with
  | nil => exact h
  | cons y ys ih => exact ih (contains_add_mono x y h)

/-- C1: adding `x` makes `contains x` true, and it stays true after any
further sequence of `add` calls; `contains` is false exactly when at least
one of the `hashCount` computed bit positions for `x` is unset. -/
theorem bloom_no_false_negative (f : BloomFilter) (h : f.WF) (x : List Nat)
    (ys : List (List Nat)) :
    ((f.add x).addMany ys).contains x = true ∧
      (f.contains x = false ↔
        ∃ p ∈ f.getHashPositions x, testBitByte f.bitArray p = false) := by
  constructor
  · exact contains_addMany_mono x ys (contains_add_self h x)
  · unfold BloomFilter.contains
    simp [List.all_eq_true]

theorem bloom_no_false_negative_witness :
    (((BloomFilter.mk0 16 2).add [104]).addMany [[97], [98]]).contains [104] = true ∧
      ((BloomFilter.mk0 16 2).contains [104] = false ↔
        ∃ p ∈ (BloomFilter.mk0 16 2).getHashPositions [104],
          testBitByte (BloomFilter.mk0 16 2).bitArray p = false) :=
  bloom_no_false_negative (BloomFilter.mk0 16 2) (by decide) [104] [[97], [98]]

/-- C7 counterexample: `add` is not idempotent on the full observable state,
because `itemCount++` runs on every call; the stats after adding the same
key twice differ from the stats after adding it once. -/
theorem add_not_idempotent_stats :
    (((BloomFilter.mk0 16 2).add [104]).add [104]).getStats ≠
      ((BloomFilter.mk0 16 2).add [104]).getStats := by decide

/-- C7 amended: a repeated `add(x)` leaves the bit array, and hence
`contains` for every key, unchanged, but increments `itemCount` (and with it
the `getStats` item count and the estimated false-positive rate's argument)
once more. -/
theorem add_idempotent_amended (f : BloomFilter) (x : List Nat) :
    ((f.add x).add x).bitArray = (f.add x).bitArray ∧
      (∀ y, ((f.add x).add x).contains y = (f.add x).contains y) ∧
      ((f.add x).add x).itemCount = (f.add x).itemCount + 1 := by
  have hbit : ((f.add x).add x).bitArray = (f.add x).bitArray :=
    foldl_setBitByte_idem (f.getHashPositions x) f.bitArray
  refine ⟨hbit, ?_, rfl⟩
  intro y
  unfold BloomFilter.contains
  rw [show ((f.add x).add x).getHashPositions y = (f.add x).getHashPositions y from rfl,
    hbit]

/-- C10: for a well-formed filter every computed hash position is below
`size`, so the byte index `⌊position / 8⌋` used by `add` and `contains` is
below the bit array's length — no out-of-bounds access. -/
theorem getHashPositions_in_bounds (f : BloomFilter) (h : f.WF) (x : List Nat) :
    ∀ p ∈ f.getHashPositions x, p < f.size ∧ p / 8 < f.bitArray.length := by
  intro p hp
  have h1 := getHashPositions_lt h.1 x p hp
  exact ⟨h1, by rw [h.2]; omega⟩

theorem getHashPositions_in_bounds_witness :
    ((BloomFilter.mk0 16 2).getHashPositions [104]).headD 0 < (BloomFilter.mk0 16 2).size ∧
      ((BloomFilter.mk0 16 2).getHashPositions [104]).headD 0 / 8 <
        (BloomFilter.mk0 16 2).bitArray.length :=
  getHashPositions_in_bounds (BloomFilter.mk0 16 2) (by decide) [104] _ (by decide)

theorem b64val_b64chr {s : Nat} (h : s < 64) : b64val (b64chr s) = s := by
  unfold b64chr b64val
  split_ifs <;> omega

theorem b64chr_ne_61 {s : Nat} (h : s < 64) : b64chr s ≠ 61 := by
  unfold b64chr
  split_ifs <;> omega

theorem b64decode_quad (c0 c1 c2 c3 : Nat) (rest : List Nat)
    (h2 : c2 ≠ 61) (h3 : c3 ≠ 61) :
    b64decode (c0 :: c1 :: c2 :: c3 :: rest) =
      (b64val c0 * 4 + b64val c1 / 16) :: (b64val c1 % 16 * 16 + b64val c2 / 4) ::
        (b64val c2 % 4 * 64 + b64val c3) :: b64decode rest := by
  show (if c2 = 61 then _ else if c3 = 61 then _ else _) = _
  rw [if_neg h2, if_neg h3]

theorem b64decode_pad2 (c0 c1 : Nat) :
    b64decode [c0, c1, 61, 61] = [b64val c0 * 4 + b64val c1 / 16] := by
  show (if (61 : Nat) = 61 then _ else _) = _
  rw [if_pos rfl]

theorem b64decode_pad1 (c0 c1 c2 : Nat) (h2 : c2 ≠ 61) :
    b64decode [c0, c1, c2, 61] =
      [b64val c0 * 4 + b64val c1 / 16, b64val c1 % 16 * 16 + b64val c2 / 4] := by
  show (if c2 = 61 then _ else if (61 : Nat) = 61 then _ else _) = _
  rw [if_neg h2, if_pos rfl]

theorem b64decode_encode : ∀ l : List Nat, (∀ b ∈ l, b < 256) →
    b64decode (b64encode l) = l
  | [], _ => rfl
  | [a], h => by
    have ha : a < 256 := h a (by simp)
    show b64decode [b64chr (a / 4), b64chr (a % 4 * 16), 61, 61] = [a]
    rw [b64decode_pad2, b64val_b64chr (by omega), b64val_b64chr (by omega)]
    congr 1
    omega
  | [a, b], h => by
    have ha : a < 256 := h a (by simp)
    have hb : b < 256 := h b (by simp)
    show b64decode [b64chr (a / 4), b64chr (a % 4 * 16 + b / 16),
      b64chr (b % 16 * 4), 61] = [a, b]
    rw [b64decode_pad1 _ _ _ (b64chr_ne_61 (by omega)), b64val_b64chr (by omega),
      b64val_b64chr (by omega), b64val_b64chr (by omega)]
    simp only [List.cons.injEq]
    refine ⟨by omega, by omega, by trivial⟩
  | a :: b :: c :: rest, h => by
    have ha : a < 256 := h a (by simp)
    have hb : b < 256 := h b (by simp)
    have hc : c < 256 := h c (by simp)
    have ih := b64decode_encode rest fun x hx => h x (by simp [hx])
    show b64decode (b64chr (a / 4) :: b64chr (a % 4 * 16 + b / 16) ::
      b64chr (b % 16 * 4 + c / 64) :: b64chr (c % 64) :: b64encode rest) =
        a :: b :: c :: rest
    rw [b64decode_quad _ _ _ _ _ (b64chr_ne_61 (by omega)) (b64chr_ne_61 (by omega)),
      b64val_b64chr (by omega), b64val_b64chr (by omega), b64val_b64chr (by omega),
      b64val_b64chr (by omega), ih]
    simp only [List.cons.injEq]
    refine ⟨by omega, by omega, by omega, by trivial⟩

theorem u32le_lt (n : Nat) : ∀ b ∈ u32le n, b < 256 := by
  intro b hb
  simp only [u32le, List.mem_cons, List.not_mem_nil, or_false] at hb
  rcases hb with rfl | rfl | rfl | rfl <;> omega

/-- C3: serialization round-trips — `deserialize (serialize f)` restores the
size, hash count, item count and bit array exactly (they are emitted as
three 32-bit unsigned little-endian words plus the raw bytes, base64
encoded), so `contains` agrees with the original filter on every key. -/
theorem deserialize_serialize (f : BloomFilter)
    (hs : f.size < 2 ^ 32) (hh : f.hashCount < 2 ^ 32) (hi : f.itemCount < 2 ^ 32)
    (hb : ∀ b ∈ f.bitArray, b < 256) :
    BloomFilter.deserialize f.serialize = f ∧
      ∀ x, (BloomFilter.deserialize f.serialize).contains x = f.contains x := by
  have hall : ∀ b ∈ u32le f.size ++ u32le f.hashCount ++ u32le f.itemCount ++
      f.bitArray, b < 256 := by
    intro b hbm
    simp only [List.mem_append] at hbm
    rcases hbm with ((h1 | h2) | h3) | h4
    exacts [u32le_lt _ _ h1, u32le_lt _ _ h2, u32le_lt _ _ h3, hb _ h4]
  have hbytes := b64decode_encode _ hall
  have heq : BloomFilter.deserialize f.serialize = f := by
    obtain ⟨s, k, arr, n⟩ := f
    simp only [BloomFilter.deserialize, BloomFilter.serialize] at *
    rw [hbytes]
    simp only [u32le, List.cons_append, List.nil_append, readU32, List.getD_cons_zero,
      List.getD_cons_succ, List.drop_succ_cons, List.drop_zero, BloomFilter.mk.injEq]
    refine ⟨by omega, by omega, by trivial, by omega⟩
  exact ⟨heq, fun x => by rw [heq]⟩

theorem deserialize_serialize_witness :
    (BloomFilter.deserialize ((BloomFilter.mk0 16 2).add [104]).serialize).contains [104] =
      ((BloomFilter.mk0 16 2).add [104]).contains [104] :=
  (deserialize_serialize ((BloomFilter.mk0 16 2).add [104])
    (by decide) (by decide) (by decide) (by decide)).2 [104]

/-! ### Cache-service lemmas -/

theorem onBookmarkAdded_queue (norm : JStr → JStr) (now : Int) (st : CacheState)
    (url : JStr) (h : st.isInitializing = true) :
    onBookmarkAdded norm now st url =
      { st with pendingAdditions := st.pendingAdditions ++ [url] } := by
  unfold onBookmarkAdded
  rw [h]
  rfl

theorem foldl_onBookmarkAdded_queue (norm : JStr → JStr) (now : Int)
    (evs : List JStr) (st : CacheState) (h : st.isInitializing = true) :
    evs.foldl (onBookmarkAdded norm now) st =
      { st with pendingAdditions := st.pendingAdditions ++ evs } := by
  induction evs generalizing st with
  | nil => simp
  | cons e evs ih =>
    rw [List.foldl_cons, onBookmarkAdded_queue norm now st e h,
      ih ({ st with pendingAdditions := st.pendingAdditions ++ [e] }) h]
    simp

theorem onBookmarkAdded_flags (norm : JStr → JStr) (now : Int) (st : CacheState)
    (url : JStr) :
    (onBookmarkAdded norm now st url).isInitializing = st.isInitializing ∧
      (onBookmarkAdded norm now st url).isBuilding = st.isBuilding := by
  unfold onBookmarkAdded
  split
  · exact ⟨rfl, rfl⟩
  · split
    · exact ⟨rfl, rfl⟩
    · exact ⟨rfl, rfl⟩

theorem onBookmarkAdded_urlSet_mono (norm : JStr → JStr) (now : Int)
    (st : CacheState) (url : JStr) {x : JStr} (h : x ∈ st.urlSet) :
    x ∈ (onBookmarkAdded norm now st url).urlSet := by
  unfold onBookmarkAdded
  split
  · exact h
  · split
    · exact List.mem_append_left _ h
    · exact h

theorem foldl_onBookmarkAdded_urlSet_mono (norm : JStr → JStr) (now : Int)
    (evs : List JStr) (st : CacheState) {x : JStr} (h : x ∈ st.urlSet) :
    x ∈ (evs.foldl (onBookmarkAdded norm now) st).urlSet := by
  induction evs generalizing st with
  | nil => exact h
  | cons e evs ih => exact ih _ (onBookmarkAdded_urlSet_mono norm now st e h)

theorem onBookmarkAdded_mem (norm : JStr → JStr) (now : Int) (st : CacheState)
    (url : JStr) (hi : st.isInitializing = false) (hb : st.isBuilding = false)
    (hnz : norm url ≠ []) :
    norm url ∈ (onBookmarkAdded norm now st url).urlSet := by
  unfold onBookmarkAdded
  rw [hi, hb]
  simp only [Bool.or_self, Bool.false_eq_true, if_false]
  split
  · exact List.mem_append_right _ (by simp)
  · next hcond =>
    rcases not_and_or.mp hcond with h1 | h2
    · exact absurd hnz h1
    · exact not_not.mp h2

theorem foldl_onBookmarkAdded_mem (norm : JStr → JStr) (now : Int)
    (evs : List JStr) (st : CacheState)
    (hi : st.isInitializing = false) (hb : st.isBuilding = false)
    {u : JStr} (hu : u ∈ evs) (hnz : norm u ≠ []) :
    norm u ∈ (evs.foldl (onBookmarkAdded norm now) st).urlSet := by
  induction evs generalizing st with
  | nil => cases hu
  | cons e evs ih =>
    rw [List.foldl_cons]
    have hflags := onBookmarkAdded_flags norm now st e
    rcases List.mem_cons.mp hu with rfl | hmem
    · exact foldl_onBookmarkAdded_urlSet_mono norm now evs _
        (onBookmarkAdded_mem norm now st u hi hb hnz)
    · exact ih _ (hflags.1.trans hi) (hflags.2.trans hb) hmem

theorem foldl_add_WF {f : BloomFilter} (h : f.WF) (l : List (List Nat)) :
    (l.foldl BloomFilter.add f).WF := by
  induction l generalizing f with
  | nil => exact h
  | cons x l ih => exact ih (add_WF h x)

theorem contains_foldl_add_of_mem {f : BloomFilter} (h : f.WF) {l : List (List Nat)}
    {u : List Nat} (hu : u ∈ l) : (l.foldl BloomFilter.add f).contains u = true := by
  induction l generalizing f with
  | nil => cases hu
  | cons x l ih =>
    rw [List.foldl_cons]
    rcases List.mem_cons.mp hu with rfl | hmem
    · exact contains_addMany_mono u l (contains_add_self h u)
    · exact ih (add_WF h x) hmem

theorem fullRebuild_pending (norm : JStr → JStr) (m k : Nat) (now : Int)
    (tree : List BookmarkNode) (st : CacheState) :
    (fullRebuild norm m k now tree st).pendingAdditions = st.pendingAdditions := by
  unfold fullRebuild
  split <;> rfl

theorem fullRebuild_isBuilding (norm : JStr → JStr) (m k : Nat) (now : Int)
    (tree : List BookmarkNode) (st : CacheState) (hb : st.isBuilding = false) :
    (fullRebuild norm m k now tree st).isBuilding = false := by
  unfold fullRebuild
  split
  · exact hb
  · rfl

theorem initStep2_pending (norm : JStr → JStr) (m k : Nat) (now : Int)
    (loadResult : Option BookmarkCache) (tree : List BookmarkNode)
    (st2 : CacheState) :
    (initStep2 norm m k now loadResult tree st2).pendingAdditions =
      st2.pendingAdditions := by
  rcases loadResult with _ | cache
  · exact fullRebuild_pending norm m k now tree _
  · simp only [initStep2]
    split
    · rfl
    · exact fullRebuild_pending norm m k now tree _

theorem initStep2_isBuilding (norm : JStr → JStr) (m k : Nat) (now : Int)
    (loadResult : Option BookmarkCache) (tree : List BookmarkNode)
    (st2 : CacheState) (hb : st2.isBuilding = false) :
    (initStep2 norm m k now loadResult tree st2).isBuilding = false := by
  rcases loadResult with _ | cache
  · exact fullRebuild_isBuilding norm m k now tree _ hb
  · simp only [initStep2]
    split
    · exact hb
    · exact fullRebuild_isBuilding norm m k now tree _ hb

theorem initFinally_mem (norm : JStr → JStr) (now : Int) (st3 : CacheState)
    (h3 : st3.isBuilding = false) {u : JStr} (hu : u ∈ st3.pendingAdditions)
    (hnz : norm u ≠ []) :
    norm u ∈ (initFinally norm now st3).urlSet := by
  show norm u ∈ ((({ st3 with isInitializing := false } : CacheState).pendingAdditions).foldl
    (onBookmarkAdded norm now) { st3 with isInitializing := false }).urlSet
  exact foldl_onBookmarkAdded_mem norm now _
    ({ st3 with isInitializing := false }) rfl h3 hu hnz

/-! ### C2, C4, C6, C8, C9 -/

/-- C2: a URL handed to `onBookmarkAdded` while `isInitializing` is true is
appended to `pendingAdditions` and nothing else of the state changes; and
every URL (with truthy normalization) delivered during the initializing
window is a member of the exact-match set once `initialize()` completes —
the add is not lost. -/
theorem pending_addition_not_lost (norm : JStr → JStr) (m k : Nat) (now : Int)
    (loadResult : Option BookmarkCache) (tree : List BookmarkNode)
    (events : List JStr) (st0 : CacheState) (hb0 : st0.isBuilding = false)
    (u : JStr) (hu : u ∈ events) (hnz : norm u ≠ []) :
    (∀ st url, st.isInitializing = true →
      onBookmarkAdded norm now st url =
        { st with pendingAdditions := st.pendingAdditions ++ [url] }) ∧
      norm u ∈ (initializeService norm m k now loadResult tree events st0).urlSet := by
  refine ⟨fun st url h => onBookmarkAdded_queue norm now st url h, ?_⟩
  unfold initializeService
  rw [foldl_onBookmarkAdded_queue norm now events
    ({ st0 with isInitializing := true, pendingAdditions := [] }) rfl]
  apply initFinally_mem
  · exact initStep2_isBuilding norm m k now loadResult tree _ hb0
  · rw [initStep2_pending]
    show u ∈ ([] : List JStr) ++ events
    rw [List.nil_append]
    exact hu
  · exact hnz

theorem pending_addition_not_lost_witness :
    (fun v => v) [104] ∈ (initializeService (fun v => v) 8 1 0 none []
      [[104]] initialCacheState).urlSet :=
  (pending_addition_not_lost (fun v => v) 8 1 0 none [] [[104]] initialCacheState
    rfl [104] (by decide) (by decide)).2

/-- C4: the filter is a superset-approximation of the exact set — the
invariant `SupersetInv` holds after `fullRebuild` (for any constructor
sizing with at least one bit) and is preserved by every incremental
`onBookmarkAdded`. -/
theorem bloom_superset_invariant (norm : JStr → JStr) (m k : Nat) (hm : 1 ≤ m)
    (now : Int) (tree : List BookmarkNode) (st : CacheState) (url : JStr) :
    (st.isBuilding = false → SupersetInv (fullRebuild norm m k now tree st)) ∧
      (SupersetInv st → SupersetInv (onBookmarkAdded norm now st url)) := by
  constructor
  · intro hb
    unfold fullRebuild
    rw [hb]
    simp only [Bool.false_eq_true, if_false]
    intro f hf
    simp only [Option.some.injEq] at hf
    subst hf
    refine ⟨foldl_add_WF (mk0_WF m k hm) _, ?_⟩
    intro v hv
    exact contains_foldl_add_of_mem (mk0_WF m k hm) hv
  · intro hInv
    unfold SupersetInv onBookmarkAdded
    split
    · exact fun f hf => hInv f hf
    · split
      · intro f hf
        have hf2 : Option.map (fun g => g.add (norm url)) st.bloomFilter = some f := hf
        rw [Option.map_eq_some'] at hf2
        obtain ⟨g, hg, h2⟩ := hf2
        subst h2
        obtain ⟨hWF, hmem⟩ := hInv g hg
        refine ⟨add_WF hWF _, ?_⟩
        intro v hv
        rcases List.mem_append.mp hv with h1 | h2
        · exact contains_add_mono _ _ (hmem v h1)
        · simp only [List.mem_singleton] at h2
          subst h2
          exact contains_add_self hWF _
      · exact fun f hf => hInv f hf

theorem bloom_superset_invariant_witness :
    SupersetInv (fullRebuild (fun v => v) 8 1 0
      [BookmarkNode.node (some [104]) []] initialCacheState) :=
  (bloom_superset_invariant (fun v => v) 8 1 (by decide) 0
    [BookmarkNode.node (some [104]) []] initialCacheState [104]).1 rfl

/-- C6: a stored record whose version differs from 1 or whose timestamp is
older than the 7-day window fails `isValidCache`, and `initialize()` then
treats it exactly like an absent record: it is not loaded, a full rebuild
runs instead. -/
theorem invalid_cache_rejected (norm : JStr → JStr) (m k : Nat) (now : Int)
    (cache : BookmarkCache) (tree : List BookmarkNode) (events : List JStr)
    (st0 : CacheState)
    (h : cache.metadata.version ≠ 1 ∨
      now - cache.metadata.lastUpdated > 7 * 24 * 60 * 60 * 1000) :
    isValidCache now cache = false ∧
      initializeService norm m k now (some cache) tree events st0 =
        initializeService norm m k now none tree events st0 := by
  have hv : isValidCache now cache = false := by
    unfold isValidCache
    by_cases h1 : cache.metadata.version ≠ 1
    · rw [if_pos h1]
    · rw [if_neg h1, if_pos (by rcases h with h | h; exact absurd h h1; exact h)]
  refine ⟨hv, ?_⟩
  simp [initializeService, initStep2, hv]

theorem invalid_cache_rejected_witness :
    isValidCache 0
        { bloomFilterData := [65], urlSet := [[104]],
          metadata := { version := 0, bookmarkCount := 1, lastUpdated := 0 } } = false ∧
      initializeService (fun v => v) 8 1 0
          (some
            { bloomFilterData := [65], urlSet := [[104]],
              metadata := { version := 0, bookmarkCount := 1, lastUpdated := 0 } })
          [] [] initialCacheState =
        initializeService (fun v => v) 8 1 0 none [] [] initialCacheState :=
  invalid_cache_rejected (fun v => v) 8 1 0 _ [] [] initialCacheState
    (Or.inl (by decide))

/-- C9: a structurally present, version-matching and fresh record whose
exact URL set is empty is still rejected by `isValidCache` and treated as
absent by `initialize()` (full rebuild) — an empty bookmark collection is
never served from the persisted cache. -/
theorem empty_urlset_cache_invalid (norm : JStr → JStr) (m k : Nat) (now : Int)
    (cache : BookmarkCache) (tree : List BookmarkNode) (events : List JStr)
    (st0 : CacheState) (hv : cache.metadata.version = 1)
    (hf : ¬ now - cache.metadata.lastUpdated > 7 * 24 * 60 * 60 * 1000)
    (he : cache.urlSet = []) :
    isValidCache now cache = false ∧
      initializeService norm m k now (some cache) tree events st0 =
        initializeService norm m k now none tree events st0 := by
  have hval : isValidCache now cache = false := by
    unfold isValidCache
    rw [if_neg (by simp [hv]), if_neg hf, if_pos (by simp [he])]
  refine ⟨hval, ?_⟩
  simp [initializeService, initStep2, hval]

theorem empty_urlset_cache_invalid_witness :
    isValidCache 0
        { bloomFilterData := [65], urlSet := [],
          metadata := { version := 1, bookmarkCount := 0, lastUpdated := 0 } } = false ∧
      initializeService (fun v => v) 8 1 0
          (some
            { bloomFilterData := [65], urlSet := [],
              metadata := { version := 1, bookmarkCount := 0, lastUpdated := 0 } })
          [] [] initialCacheState =
        initializeService (fun v => v) 8 1 0 none [] [] initialCacheState :=
  empty_urlset_cache_invalid (fun v => v) 8 1 0 _ [] [] initialCacheState
    (by decide) (by decide) (by decide)

/-- C8 counterexample: with `isInitializing` false but `isBuilding` true,
`onBookmarkAdded` still appends the URL to `pendingAdditions` (and does not
touch the exact set), so the queue is not appended to only while
`isInitializing` is true. -/
theorem pending_queue_append_while_building :
    ({ initialCacheState with isBuilding := true } : CacheState).isInitializing
        = false ∧
      (onBookmarkAdded (fun v => v) 0
        { initialCacheState with isBuilding := true } [104]).pendingAdditions
        = [[104]] ∧
      (onBookmarkAdded (fun v => v) 0
        { initialCacheState with isBuilding := true } [104]).urlSet = [] :=
  ⟨rfl, rfl, rfl⟩

/-- C8 amended: `pendingAdditions` is appended to exactly while
`isInitializing` or `isBuilding` is true; when both are false the URL goes
through the normal incremental-add path — the queue is untouched and a
truthy normalized URL becomes a member of the exact set. -/
theorem pending_queue_amended (norm : JStr → JStr) (now : Int) (st : CacheState)
    (url : JStr) (hi : st.isInitializing = false) (hb : st.isBuilding = false) :
    (onBookmarkAdded norm now st url).pendingAdditions = st.pendingAdditions ∧
      (norm url ≠ [] → norm url ∈ (onBookmarkAdded norm now st url).urlSet) := by
  constructor
  · unfold onBookmarkAdded
    rw [hi, hb]
    simp only [Bool.or_self, Bool.false_eq_true, if_false]
    split <;> rfl
  · exact fun hnz => onBookmarkAdded_mem norm now st url hi hb hnz

theorem pending_queue_amended_witness :
    (onBookmarkAdded (fun v => v) 0 initialCacheState [104]).pendingAdditions =
        initialCacheState.pendingAdditions ∧
      [104] ∈ (onBookmarkAdded (fun v => v) 0 initialCacheState [104]).urlSet :=
  ⟨(pending_queue_amended (fun v => v) 0 initialCacheState [104] rfl rfl).1,
   (pending_queue_amended (fun v => v) 0 initialCacheState [104] rfl rfl).2
     (by decide)⟩

theorem natToDecFuel_congr (n : Nat) : ∀ fuel fuel' : Nat, n < fuel → n < fuel' →
    natToDecFuel fuel n = natToDecFuel fuel' n := by
  induction n using Nat.strong_induction_on with
  | _ n ih =>
    intro fuel fuel' hf hf'
    match fuel, fuel' with
    | f + 1, g + 1 =>
      show (if n < 10 then [48 + n] else natToDecFuel f (n / 10) ++ [48 + n % 10]) =
        (if n < 10 then [48 + n] else natToDecFuel g (n / 10) ++ [48 + n % 10])
      by_cases h10 : n < 10
      · rw [if_pos h10, if_pos h10]
      · rw [if_neg h10, if_neg h10]
        have hlt : n / 10 < n := Nat.div_lt_self (by omega) (by omega)
        rw [ih (n / 10) hlt f g (by omega) (by omega)]

theorem natToDec_eq (n : Nat) :
    natToDec n = if n < 10 then [48 + n] else natToDec (n / 10) ++ [48 + n % 10] := by
  show natToDecFuel (n + 1) n = _
  by_cases h10 : n < 10
  · rw [if_pos h10]
    show (if n < 10 then [48 + n] else _) = _
    rw [if_pos h10]
  · rw [if_neg h10]
    show (if n < 10 then [48 + n] else natToDecFuel n (n / 10) ++ [48 + n % 10]) = _
    rw [if_neg h10]
    have hlt : n / 10 < n := Nat.div_lt_self (by omega) (by omega)
    rw [natToDecFuel_congr (n / 10) n (n / 10 + 1) hlt (by omega)]
    rfl

/-! Basic facts about the string helpers. -/

theorem lowerChar_idem (c : Nat) : lowerChar (lowerChar c) = lowerChar c := by
  unfold lowerChar
  split_ifs <;> omega

theorem lowerStr_idem (s : JStr) : lowerStr (lowerStr s) = lowerStr s := by
  unfold lowerStr
  rw [List.map_map]
  exact List.map_congr_left fun c _ => lowerChar_idem c

theorem lowerStr_append (a b : JStr) : lowerStr (a ++ b) = lowerStr a ++ lowerStr b :=
  List.map_append lowerChar a b

theorem mem_lowerStr_ne {s : JStr} {d : Nat} (hd : ∀ c, lowerChar c = d ↔ c = d)
    (h : d ∉ s) : d ∉ lowerStr s := by
  intro hmem
  obtain ⟨c, hc, hcd⟩ := List.mem_map.mp hmem
  exact h ((hd c).mp hcd ▸ hc)

theorem lowerChar_eq_self {c : Nat} (h : ¬ (65 ≤ c ∧ c ≤ 90)) : lowerChar c = c := by
  unfold lowerChar
  rw [if_neg h]

theorem dropPref_append (p r : JStr) : dropPref p (p ++ r) = some r := by
  induction p with
  | nil => rfl
  | cons c cs ih => simpa [dropPref] using ih

theorem dropPref_eq_some {p s r : JStr} (h : dropPref p s = some r) : s = p ++ r := by
  induction p generalizing s with
  | nil =>
    cases h
    rfl
  | cons c cs ih =>
    match s with
    | [] => cases h
    | d :: ds =>
      unfold dropPref at h
      split_ifs at h with hd
      · rw [hd, List.cons_append]
        exact congrArg _ (ih h)

theorem dropWhile_head_false {p : Nat → Bool} :
    ∀ {l : JStr} {c : Nat} {cs : JStr}, l.dropWhile p = c :: cs → p c = false := by
  intro l
  induction l with
  | nil => intro c cs h; cases h
  | cons a as ih =>
    intro c cs h
    rw [List.dropWhile_cons] at h
    split_ifs at h with ha
    · exact ih h
    · injection h with h1 h2
      subst h1
      simpa using ha

theorem stripTrailingSlashes_not_endsSlash (s : JStr) :
    stripTrailingSlashes s = [] ∨ endsSlash (stripTrailingSlashes s) = false := by
  unfold stripTrailingSlashes endsSlash
  rcases hd : s.reverse.dropWhile (fun c => decide (c = 47)) with - | ⟨c, cs⟩
  · left
    rfl
  · right
    have hc : c ≠ 47 := by simpa using dropWhile_head_false hd
    rw [List.getLast?_reverse]
    simp [hc]

theorem stripTrailingSlashes_id {s : JStr} (h : endsSlash s = false) :
    stripTrailingSlashes s = s := by
  unfold stripTrailingSlashes
  rcases hs : s.reverse with - | ⟨c, cs⟩
  · have : s = [] := by simpa using congrArg List.reverse hs
    simp [this]
  · have hc : c ≠ 47 := by
      intro hc
      unfold endsSlash at h
      rw [List.getLast?_eq_head?_reverse, hs] at h
      simp [hc] at h
    rw [List.dropWhile_cons, if_neg (by simpa using hc), ← hs, List.reverse_reverse]

theorem endsSlash_lowerStr (s : JStr) : endsSlash (lowerStr s) = endsSlash s := by
  unfold endsSlash lowerStr
  rcases hs : s.getLast? with - | c
  · rw [List.getLast?_map, hs]
    rfl
  · rw [List.getLast?_map, hs]
    show decide (some (lowerChar c) = some 47) = decide (some c = some 47)
    simp only [Option.some.injEq, decide_eq_decide]
    unfold lowerChar
    split_ifs with hc
    · constructor <;> omega
    · exact Iff.rfl

theorem natToDec_digits (n : Nat) : ∀ c ∈ natToDec n, isDigit c = true := by
  induction n using Nat.strong_induction_on with
  | _ n ih =>
    rw [natToDec_eq]
    split_ifs with h
    · intro c hc
      simp only [List.mem_singleton] at hc
      subst hc
      simp only [isDigit, decide_eq_true_eq]
      omega
    · intro c hc
      rcases List.mem_append.mp hc with h1 | h2
      · exact ih (n / 10) (Nat.div_lt_self (by omega) (by omega)) c h1
      · simp only [List.mem_singleton] at h2
        subst h2
        simp only [isDigit, decide_eq_true_eq]
        omega

theorem natToDec_ne_nil (n : Nat) : natToDec n ≠ [] := by
  rw [natToDec_eq]
  split_ifs <;> simp

theorem decToNat_append_digit (l : JStr) (d : Nat) :
    decToNat (l ++ [d]) = decToNat l * 10 + (d - 48) := by
  unfold decToNat
  rw [List.foldl_append]
  rfl

theorem decToNat_natToDec (n : Nat) : decToNat (natToDec n) = n := by
  induction n using Nat.strong_induction_on with
  | _ n ih =>
    rw [natToDec_eq]
    split_ifs with h
    · show decToNat [48 + n] = n
      simp [decToNat]
    · rw [decToNat_append_digit, ih (n / 10) (Nat.div_lt_self (by omega) (by omega))]
      omega

theorem takeWhile_dropWhile_append {p : Nat → Bool} {a : JStr}
    (ha : ∀ c ∈ a, p c = true) :
    ∀ {b : JStr}, (b = [] ∨ ∃ c cs, b = c :: cs ∧ p c = false) →
      (a ++ b).takeWhile p = a ∧ (a ++ b).dropWhile p = b := by
  induction a with
  | nil =>
    intro b hb
    rcases hb with rfl | ⟨c, cs, rfl, hc⟩
    · exact ⟨rfl, rfl⟩
    · rw [List.nil_append, List.takeWhile_cons, List.dropWhile_cons, hc]
      exact ⟨rfl, rfl⟩
  | cons x xs ih =>
    intro b hb
    have hx : p x = true := ha x (by simp)
    have := ih (fun c hc => ha c (by simp [hc])) hb
    rw [List.cons_append, List.takeWhile_cons, List.dropWhile_cons, hx]
    simp only [if_true]
    exact ⟨by rw [this.1], by rw [this.2]⟩

/-- C5 counterexample: `normalizeUrl` is not idempotent for every policy.
With only ignore-www set, `https://www.www.a.com/` normalizes to
`https://www.a.com/` (the `replace(/^www\./, '')` strips one `www.` per
call), and a second application strips the next `www.`, giving
`https://a.com/`. -/
theorem normalizeUrl_not_idempotent :
    normalizeUrl
        { ignoreProtocol := false, ignoreTrailingSlash := false, ignoreCase := false,
          ignoreWww := true, ignoreHash := false, ignoreDiscoursePostNumber := false }
        (normalizeUrl
          { ignoreProtocol := false, ignoreTrailingSlash := false, ignoreCase := false,
            ignoreWww := true, ignoreHash := false, ignoreDiscoursePostNumber := false }
          [104, 116, 116, 112, 115, 58, 47, 47, 119, 119, 119, 46, 119, 119, 119,
            46, 97, 46, 99, 111, 109, 47]) ≠
      normalizeUrl
        { ignoreProtocol := false, ignoreTrailingSlash := false, ignoreCase := false,
          ignoreWww := true, ignoreHash := false, ignoreDiscoursePostNumber := false }
        [104, 116, 116, 112, 115, 58, 47, 47, 119, 119, 119, 46, 119, 119, 119,
          46, 97, 46, 99, 111, 109, 47] := by
  decide

/-! ### Parse/serialize roundtrip on the fragment -/

theorem isHostChar_spec {c : Nat} : isHostChar c = true ↔
    (97 ≤ c ∧ c ≤ 122) ∨ (48 ≤ c ∧ c ≤ 57) ∨ c = 46 ∨ c = 45 := by
  simp [isHostChar, isDigit]
  tauto

theorem isPathChar_spec {c : Nat} : isPathChar c = true ↔
    (65 ≤ c ∧ c ≤ 90) ∨ (97 ≤ c ∧ c ≤ 122) ∨ (48 ≤ c ∧ c ≤ 57) ∨
      c = 46 ∨ c = 45 ∨ c = 95 ∨ c = 126 := by
  simp [isPathChar, isDigit]
  tauto

theorem isQFChar_spec {c : Nat} : isQFChar c = true ↔
    (65 ≤ c ∧ c ≤ 90) ∨ (97 ≤ c ∧ c ≤ 122) ∨ (48 ≤ c ∧ c ≤ 57) ∨
      c = 46 ∨ c = 45 ∨ c = 95 ∨ c = 126 ∨ c = 47 ∨ c = 61 ∨ c = 38 := by
  simp [isQFChar, isPathChar, isDigit]
  tauto

theorem hostChar_ne_58 {c : Nat} (h : isHostChar c = true) : c ≠ 58 := by
  rcases isHostChar_spec.mp h with h | h | h | h <;> omega

theorem hostChar_not_authEnd {c : Nat} (h : isHostChar c = true) :
    isAuthEnd c = false := by
  have := isHostChar_spec.mp h
  simp only [isAuthEnd, Bool.or_eq_false_iff, decide_eq_false_iff_not]
  omega

theorem digit_not_authEnd {c : Nat} (h : isDigit c = true) : isAuthEnd c = false := by
  simp only [isDigit, decide_eq_true_eq] at h
  simp only [isAuthEnd, Bool.or_eq_false_iff, decide_eq_false_iff_not]
  omega

theorem digit_ne_58 {c : Nat} (h : isDigit c = true) : c ≠ 58 := by
  simp only [isDigit, decide_eq_true_eq] at h
  omega

theorem pathChar_ne {c : Nat} (h : isPathChar c = true) :
    c ≠ 47 ∧ c ≠ 63 ∧ c ≠ 35 := by
  have := isPathChar_spec.mp h
  omega

theorem qfChar_ne_35 {c : Nat} (h : isQFChar c = true) : c ≠ 35 := by
  have := isQFChar_spec.mp h
  omega

theorem segOk_no_slash {s : JStr} (h : segOk s = true) : 47 ∉ s := by
  intro hmem
  simp only [segOk, Bool.and_eq_true, List.all_eq_true] at h
  exact (pathChar_ne (h.1.1 47 hmem)).1 rfl

theorem parseAuthority_roundtrip (host : JStr) (port : Option Nat) (default : Nat)
    (hne : host ≠ []) (hchar : host.all isHostChar = true)
    (hport : ∀ n, port = some n → n ≤ 65535 ∧ n ≠ default) :
    parseAuthority (host ++ serializePort port) default = some (host, port) := by
  have hall : ∀ c ∈ host, decide (c ≠ 58) = true := by
    intro c hc
    simpa using hostChar_ne_58 (List.all_eq_true.mp hchar c hc)
  rcases port with _ | n
  · have hser : host ++ serializePort none = host := by simp [serializePort]
    rw [hser]
    have hsplit := takeWhile_dropWhile_append hall (b := []) (Or.inl rfl)
    rw [List.append_nil] at hsplit
    unfold parseAuthority
    rw [hsplit.1, hsplit.2, if_neg hne, hchar]
    rfl
  · have hsplit := takeWhile_dropWhile_append hall
      (b := 58 :: natToDec n) (Or.inr ⟨58, natToDec n, rfl, by simp⟩)
    show parseAuthority (host ++ 58 :: natToDec n) default = _
    unfold parseAuthority
    rw [hsplit.1, hsplit.2, if_neg hne, hchar]
    simp only [Bool.true_eq_false, if_false]
    rw [if_neg (natToDec_ne_nil n)]
    have hd : (natToDec n).all isDigit = true := List.all_eq_true.mpr (natToDec_digits n)
    rw [hd]
    simp only [Bool.true_eq_false, if_false]
    rw [decToNat_natToDec]
    obtain ⟨h1, h2⟩ := hport n rfl
    rw [if_neg (by omega), if_neg h2]

theorem splitOnSlash_no_slash {s : JStr} (h : 47 ∉ s) : splitOnSlash s = [s] := by
  induction s with
  | nil => rfl
  | cons c cs ih =>
    have hc : c ≠ 47 := fun hc => h (hc ▸ List.mem_cons_self c cs)
    unfold splitOnSlash
    rw [if_neg hc, ih fun hm => h (List.mem_cons_of_mem c hm)]

theorem splitOnSlash_append {a : JStr} (r : JStr) (h : 47 ∉ a) :
    splitOnSlash (a ++ 47 :: r) = a :: splitOnSlash r := by
  induction a with
  | nil =>
    show splitOnSlash (47 :: r) = [] :: splitOnSlash r
    simp [splitOnSlash]
  | cons c cs ih =>
    have hc : c ≠ 47 := fun hc => h (hc ▸ List.mem_cons_self c cs)
    show splitOnSlash (c :: (cs ++ 47 :: r)) = (c :: cs) :: splitOnSlash r
    simp only [splitOnSlash]
    rw [if_neg hc, ih fun hm => h (List.mem_cons_of_mem c hm)]

theorem serializePath_nil : serializePath [] = [] := rfl

theorem serializePath_cons (s : JStr) (ss : List JStr) :
    serializePath (s :: ss) = 47 :: (s ++ serializePath ss) := by
  simp [serializePath]

theorem splitOnSlash_serialize : ∀ (ss : List JStr) (s : JStr), 47 ∉ s →
    (∀ t ∈ ss, 47 ∉ t) → splitOnSlash (s ++ serializePath ss) = s :: ss := by
  intro ss
  induction ss with
  | nil =>
    intro s hs _
    rw [serializePath_nil, List.append_nil]
    exact splitOnSlash_no_slash hs
  | cons t ts ih =>
    intro s hs hts
    rw [serializePath_cons, splitOnSlash_append _ hs,
      ih t (hts t (by simp)) fun x hx => hts x (by simp [hx])]

theorem parsePath_roundtrip (path : List JStr) (hne : path ≠ [])
    (hsegs : ∀ s ∈ path, segOk s = true) :
    parsePath (serializePath path) = some path := by
  match path with
  | s :: ss =>
    rw [serializePath_cons]
    have hsplit := splitOnSlash_serialize ss s (segOk_no_slash (hsegs s (by simp)))
      fun t ht => segOk_no_slash (hsegs t (by simp [ht]))
    simp only [parsePath, hsplit, List.all_eq_true.mpr hsegs]
    simp

theorem qf_all_ne_35 {q : JStr} (h : q.all isQFChar = true) :
    ∀ c ∈ q, decide (c ≠ 35) = true := fun c hc => by
  simpa using qfChar_ne_35 (List.all_eq_true.mp h c hc)

theorem parseQF_roundtrip (q f : Option JStr)
    (hq : ∀ x, q = some x → x.all isQFChar = true)
    (hf : ∀ x, f = some x → x.all isQFChar = true) :
    parseQF (serializeQF 63 q ++ serializeQF 35 f) = some (q, f) := by
  rcases q with _ | qs <;> rcases f with _ | fs
  · rfl
  · show parseQF (35 :: fs) = some (none, some fs)
    simp only [parseQF]
    rw [if_true, hf fs rfl]
    simp
  · show parseQF ((63 :: qs) ++ []) = some (some qs, none)
    rw [List.append_nil]
    have hsplit := takeWhile_dropWhile_append (qf_all_ne_35 (hq qs rfl))
      (b := []) (Or.inl rfl)
    rw [List.append_nil] at hsplit
    simp only [parseQF]
    rw [if_true, hsplit.1, hsplit.2, hq qs rfl]
    simp
  · show parseQF ((63 :: qs) ++ 35 :: fs) = some (some qs, some fs)
    have hsplit := takeWhile_dropWhile_append (qf_all_ne_35 (hq qs rfl))
      (b := 35 :: fs) (Or.inr ⟨35, fs, rfl, by simp⟩)
    show parseQF (63 :: (qs ++ 35 :: fs)) = some (some qs, some fs)
    simp only [parseQF]
    rw [if_true, hsplit.1, hsplit.2, hq qs rfl]
    simp [hf fs rfl]

theorem segOk_pathChar {s : JStr} (h : segOk s = true) : s.all isPathChar = true := by
  simp only [segOk, Bool.and_eq_true] at h
  exact h.1.1

theorem serializePath_chars {path : List JStr} (h : ∀ s ∈ path, segOk s = true) :
    ∀ c ∈ serializePath path, c = 47 ∨ isPathChar c = true := by
  induction path with
  | nil =>
    intro c hc
    rw [serializePath_nil] at hc
    cases hc
  | cons s ss ih =>
    intro c hc
    rw [serializePath_cons] at hc
    rcases List.mem_cons.mp hc with rfl | hc2
    · exact Or.inl rfl
    · rcases List.mem_append.mp hc2 with h1 | h2
      · exact Or.inr (List.all_eq_true.mp (segOk_pathChar (h s (by simp))) c h1)
      · exact ih (fun t ht => h t (by simp [ht])) c h2

theorem parseAfterScheme_roundtrip (scheme : JStr) (default : Nat) (host : JStr)
    (port : Option Nat) (path : List JStr) (q f : Option JStr)
    (hne : host ≠ []) (hchar : host.all isHostChar = true)
    (hport : ∀ n, port = some n → n ≤ 65535 ∧ n ≠ default)
    (hpathne : path ≠ []) (hsegs : ∀ s ∈ path, segOk s = true)
    (hq : ∀ x, q = some x → x.all isQFChar = true)
    (hf : ∀ x, f = some x → x.all isQFChar = true) :
    parseAfterScheme scheme default
      (host ++ (serializePort port ++ (serializePath path ++
        (serializeQF 63 q ++ serializeQF 35 f)))) =
      some { scheme := scheme, host := host, port := port, path := path,
             query := q, frag := f } := by
  obtain ⟨s0, ss, rfl⟩ : ∃ s0 ss, path = s0 :: ss := by
    cases path with
    | nil => exact absurd rfl hpathne
    | cons a l => exact ⟨a, l, rfl⟩
  have hauthall : ∀ c ∈ host ++ serializePort port, (!isAuthEnd c) = true := by
    intro c hc
    rcases List.mem_append.mp hc with h1 | h2
    · rw [hostChar_not_authEnd (List.all_eq_true.mp hchar c h1)]
      rfl
    · rcases port with _ | n
      · cases h2
      · rcases List.mem_cons.mp h2 with rfl | h3
        · rfl
        · rw [digit_not_authEnd (natToDec_digits n c h3)]
          rfl
  have htail : serializePath (s0 :: ss) ++ (serializeQF 63 q ++ serializeQF 35 f) =
      47 :: ((s0 ++ serializePath ss) ++ (serializeQF 63 q ++ serializeQF 35 f)) := by
    rw [serializePath_cons]
    rfl
  have hsplit1 := takeWhile_dropWhile_append (p := fun c => !isAuthEnd c) hauthall
    (b := serializePath (s0 :: ss) ++ (serializeQF 63 q ++ serializeQF 35 f))
    (Or.inr ⟨47, _, htail, rfl⟩)
  have hregroup : host ++ (serializePort port ++ (serializePath (s0 :: ss) ++
      (serializeQF 63 q ++ serializeQF 35 f))) =
      (host ++ serializePort port) ++ (serializePath (s0 :: ss) ++
        (serializeQF 63 q ++ serializeQF 35 f)) := by
    rw [List.append_assoc]
  have hpathall : ∀ c ∈ serializePath (s0 :: ss),
      (decide (c ≠ 63) && decide (c ≠ 35)) = true := by
    intro c hc
    rcases serializePath_chars hsegs c hc with rfl | hpc
    · rfl
    · have := pathChar_ne hpc
      simp [this.2.1, this.2.2]
  have hqfsplit : (serializeQF 63 q ++ serializeQF 35 f) = [] ∨
      ∃ c cs, (serializeQF 63 q ++ serializeQF 35 f) = c :: cs ∧
        (decide (c ≠ 63) && decide (c ≠ 35)) = false := by
    rcases q with _ | qs
    · rcases f with _ | fs
      · exact Or.inl rfl
      · exact Or.inr ⟨35, fs, rfl, by simp⟩
    · exact Or.inr ⟨63, qs ++ serializeQF 35 f, rfl, by simp⟩
  have hsplit2 := takeWhile_dropWhile_append
    (p := fun c => decide (c ≠ 63) && decide (c ≠ 35)) hpathall hqfsplit
  unfold parseAfterScheme
  rw [hregroup, hsplit1.1, hsplit1.2,
    parseAuthority_roundtrip host port default hne hchar hport,
    hsplit2.1, hsplit2.2,
    parsePath_roundtrip (s0 :: ss) hpathne hsegs,
    parseQF_roundtrip q f hq hf]

theorem parseUrl_serialize {u : JsUrl} (h : WFUrl u) :
    parseUrl (serializeUrl u) = some u := by
  obtain ⟨hscheme, hhost, hchar, hport, hpathne, hsegs, hq, hf⟩ := h
  obtain ⟨sc, host, port, path, q, f⟩ := u
  simp only at hscheme hhost hchar hport hpathne hsegs hq hf
  rcases hscheme with rfl | rfl
  · show parseUrl (httpPref ++ (host ++ (serializePort port ++ (serializePath path ++
      (serializeQF 63 q ++ serializeQF 35 f))))) = _
    unfold parseUrl
    rw [dropPref_append]
    exact parseAfterScheme_roundtrip schemeHttp 80 host port path q f
      hhost hchar hport hpathne hsegs hq hf
  · show parseUrl (httpsPref ++ (host ++ (serializePort port ++ (serializePath path ++
      (serializeQF 63 q ++ serializeQF 35 f))))) = _
    unfold parseUrl
    have h1 : dropPref httpPref (httpsPref ++ (host ++ (serializePort port ++
        (serializePath path ++ (serializeQF 63 q ++ serializeQF 35 f))))) = none := rfl
    rw [h1, dropPref_append]
    exact parseAfterScheme_roundtrip schemeHttps 443 host port path q f
      hhost hchar hport hpathne hsegs hq hf

/-! ### Facts about the pipeline steps -/

theorem stepProtocol_proj (st : UrlMatchSettings) (u : JsUrl) :
    (stepProtocol st u).host = u.host ∧ (stepProtocol st u).port = u.port ∧
      (stepProtocol st u).path = u.path ∧ (stepProtocol st u).query = u.query ∧
      (stepProtocol st u).frag = u.frag := by
  unfold stepProtocol
  split <;> exact ⟨rfl, rfl, rfl, rfl, rfl⟩

theorem stepProtocol_scheme_https (st : UrlMatchSettings) (u : JsUrl)
    (hip : st.ignoreProtocol = true)
    (h : u.scheme = schemeHttp ∨ u.scheme = schemeHttps) :
    (stepProtocol st u).scheme = schemeHttps := by
  unfold stepProtocol
  rcases h with h | h
  · rw [if_pos ⟨hip, h⟩]
  · split_ifs
    · rfl
    · exact h

theorem stepProtocol_id (st : UrlMatchSettings) (u : JsUrl)
    (h : st.ignoreProtocol = false) : stepProtocol st u = u := by
  unfold stepProtocol
  rw [if_neg (by simp [h])]

theorem stepProtocol_scheme_mem (st : UrlMatchSettings) (u : JsUrl)
    (h : u.scheme = schemeHttp ∨ u.scheme = schemeHttps) :
    (stepProtocol st u).scheme = schemeHttp ∨
      (stepProtocol st u).scheme = schemeHttps := by
  unfold stepProtocol
  split_ifs
  · exact Or.inr rfl
  · exact h

theorem stepHash_proj (st : UrlMatchSettings) (u : JsUrl) :
    (stepHash st u).scheme = u.scheme ∧ (stepHash st u).host = u.host ∧
      (stepHash st u).port = u.port ∧ (stepHash st u).path = u.path ∧
      (stepHash st u).query = u.query := by
  unfold stepHash
  split <;> exact ⟨rfl, rfl, rfl, rfl, rfl⟩

theorem stepHash_frag_none (st : UrlMatchSettings) (u : JsUrl)
    (h : st.ignoreHash = true) : (stepHash st u).frag = none := by
  unfold stepHash
  rw [if_pos h]

theorem stepHash_id (st : UrlMatchSettings) (u : JsUrl)
    (h : st.ignoreHash = false) : stepHash st u = u := by
  unfold stepHash
  rw [if_neg (by simp [h])]

theorem stepHash_frag (st : UrlMatchSettings) (u : JsUrl) (h : u.frag = none) :
    stepHash st u = u := by
  unfold stepHash
  split
  · cases u
    simp only at h
    subst h
    rfl
  · rfl

theorem stepDiscourse_id (st : UrlMatchSettings) (u : JsUrl)
    (h : st.ignoreDiscoursePostNumber = false) : stepDiscourse st u = u := by
  unfold stepDiscourse
  rw [if_neg (by simp [h])]

theorem stepWww_proj (st : UrlMatchSettings) (u : JsUrl) :
    (stepWww st u).scheme = u.scheme ∧ (stepWww st u).port = u.port ∧
      (stepWww st u).path = u.path ∧ (stepWww st u).query = u.query ∧
      (stepWww st u).frag = u.frag := by
  unfold stepWww setHostname
  split
  · split <;> exact ⟨rfl, rfl, rfl, rfl, rfl⟩
  · exact ⟨rfl, rfl, rfl, rfl, rfl⟩

theorem stepWww_id (st : UrlMatchSettings) (u : JsUrl)
    (h : st.ignoreWww = false) : stepWww st u = u := by
  unfold stepWww
  rw [if_neg (by simp [h])]

theorem stepWww_host (st : UrlMatchSettings) (u : JsUrl) (hw : st.ignoreWww = true)
    (h : stripWww u.host ≠ []) : (stepWww st u).host = stripWww u.host := by
  unfold stepWww setHostname
  rw [if_pos hw, if_neg h]

theorem stepWww_fix (st : UrlMatchSettings) (u : JsUrl)
    (h : stripWww u.host = u.host) : stepWww st u = u := by
  unfold stepWww setHostname
  split
  · rw [h]
    split
    · next hzero =>
      cases u
      simp only at hzero
      simp [hzero]
    · cases u
      rfl
  · rfl

theorem dropDefaultPort_proj (u : JsUrl) :
    (dropDefaultPort u).scheme = u.scheme ∧ (dropDefaultPort u).host = u.host ∧
      (dropDefaultPort u).path = u.path ∧ (dropDefaultPort u).query = u.query ∧
      (dropDefaultPort u).frag = u.frag := by
  unfold dropDefaultPort
  split <;> exact ⟨rfl, rfl, rfl, rfl, rfl⟩

theorem dropDefaultPort_idem (u : JsUrl) :
    dropDefaultPort (dropDefaultPort u) = dropDefaultPort u := by
  unfold dropDefaultPort
  split
  · rw [if_neg]
    intro hcon
    rcases hcon with ⟨-, hc⟩ | ⟨-, hc⟩ <;>
      exact natToDec_ne_nil _ (by simpa [portStr] using hc.symm)
  · rfl

theorem lowerStr_fix {s : JStr} (h : ∀ c ∈ s, ¬ (65 ≤ c ∧ c ≤ 90)) :
    lowerStr s = s := by
  unfold lowerStr
  have hm : List.map lowerChar s = List.map id s :=
    List.map_congr_left fun c hc => lowerChar_eq_self (h c hc)
  rw [hm, List.map_id]

theorem lowerStr_host {s : JStr} (h : s.all isHostChar = true) : lowerStr s = s := by
  apply lowerStr_fix
  intro c hc
  have := isHostChar_spec.mp (List.all_eq_true.mp h c hc)
  omega

theorem lowerStr_digits {s : JStr} (h : ∀ c ∈ s, isDigit c = true) :
    lowerStr s = s := by
  apply lowerStr_fix
  intro c hc
  have := h c hc
  simp only [isDigit, decide_eq_true_eq] at this
  omega

theorem lowerStr_serializePort (p : Option Nat) :
    lowerStr (serializePort p) = serializePort p := by
  rcases p with _ | n
  · rfl
  · show lowerStr (58 :: natToDec n) = 58 :: natToDec n
    unfold lowerStr
    rw [List.map_cons]
    rw [show lowerChar 58 = 58 from rfl]
    rw [show List.map lowerChar (natToDec n) = lowerStr (natToDec n) from rfl,
      lowerStr_digits (natToDec_digits n)]

theorem lowerStr_serializePath (path : List JStr) :
    lowerStr (serializePath path) = serializePath (path.map lowerStr) := by
  induction path with
  | nil => rfl
  | cons s ss ih =>
    rw [serializePath_cons, List.map_cons, serializePath_cons]
    unfold lowerStr
    rw [List.map_cons, show lowerChar 47 = 47 from rfl, List.map_append]
    unfold lowerStr at ih
    rw [ih]

theorem lowerStr_serializeQF (pre : Nat) (q : Option JStr)
    (hpre : lowerChar pre = pre) :
    lowerStr (serializeQF pre q) = serializeQF pre (q.map lowerStr) := by
  rcases q with _ | qs
  · rfl
  · show lowerStr (pre :: qs) = pre :: lowerStr qs
    unfold lowerStr
    rw [List.map_cons, hpre]

theorem lowerStr_serializeUrl {u : JsUrl} (h : WFUrl u) :
    lowerStr (serializeUrl u) = serializeUrl (mapLower u) := by
  obtain ⟨hscheme, _, hchar, _, _, _, _, _⟩ := h
  unfold serializeUrl
  rw [lowerStr_append, lowerStr_append, lowerStr_append, lowerStr_append,
    lowerStr_append, lowerStr_append]
  have hs : lowerStr u.scheme = u.scheme := by
    rcases hscheme with h | h <;> rw [h] <;> rfl
  rw [hs, show lowerStr [47, 47] = [47, 47] from rfl, lowerStr_host hchar,
    lowerStr_serializePort, lowerStr_serializePath,
    lowerStr_serializeQF 63 u.query rfl, lowerStr_serializeQF 35 u.frag rfl]
  rfl

theorem segOk_lower {s : JStr} (h : segOk s = true) : segOk (lowerStr s) = true := by
  simp only [segOk, Bool.and_eq_true, List.all_eq_true, decide_eq_true_eq] at h ⊢
  obtain ⟨⟨hall, hd1⟩, hd2⟩ := h
  refine ⟨⟨?_, ?_⟩, ?_⟩
  · intro c hc
    obtain ⟨d, hd, rfl⟩ := List.mem_map.mp hc
    have := isPathChar_spec.mp (hall d hd)
    rw [isPathChar_spec]
    unfold lowerChar
    split_ifs <;> omega
  · intro hcon
    apply hd1
    cases s with
    | nil => cases hcon
    | cons a l =>
      unfold lowerStr at hcon
      rw [List.map_cons] at hcon
      injection hcon with h1 h2
      have ha : a = 46 := by
        unfold lowerChar at h1
        split_ifs at h1 <;> omega
      have hl : l = [] := by
        cases l with
        | nil => rfl
        | cons b m => cases h2
      rw [ha, hl]
      rfl
  · intro hcon
    apply hd2
    cases s with
    | nil => cases hcon
    | cons a l =>
      unfold lowerStr at hcon
      rw [List.map_cons] at hcon
      injection hcon with h1 h2
      have ha : a = 46 := by
        unfold lowerChar at h1
        split_ifs at h1 <;> omega
      cases l with
      | nil => cases h2
      | cons b m =>
        rw [List.map_cons] at h2
        injection h2 with h3 h4
        have hb : b = 46 := by
          unfold lowerChar at h3
          split_ifs at h3 <;> omega
        have hm : m = [] := by
          cases m with
          | nil => rfl
          | cons x y => cases h4
        rw [ha, hb, hm]
        rfl

theorem qf_lower {s : JStr} (h : s.all isQFChar = true) :
    (lowerStr s).all isQFChar = true := by
  simp only [List.all_eq_true] at h ⊢
  intro c hc
  obtain ⟨d, hd, rfl⟩ := List.mem_map.mp hc
  have := isQFChar_spec.mp (h d hd)
  rw [isQFChar_spec]
  unfold lowerChar
  split_ifs <;> omega

theorem mapLower_WF {u : JsUrl} (h : WFUrl u) : WFUrl (mapLower u) := by
  obtain ⟨h1, h2, h3, h4, h5, h6, h7, h8⟩ := h
  refine ⟨h1, h2, h3, h4, ?_, ?_, ?_, ?_⟩
  · simpa [mapLower] using h5
  · intro s hs
    obtain ⟨t, ht, rfl⟩ := List.mem_map.mp hs
    exact segOk_lower (h6 t ht)
  · intro q hq
    rcases hq2 : u.query with _ | qs
    · rw [show (mapLower u).query = u.query.map lowerStr from rfl, hq2] at hq
      cases hq
    · rw [show (mapLower u).query = u.query.map lowerStr from rfl, hq2] at hq
      cases hq
      exact qf_lower (h7 qs hq2)
  · intro f hf
    rcases hf2 : u.frag with _ | fs
    · rw [show (mapLower u).frag = u.frag.map lowerStr from rfl, hf2] at hf
      cases hf
    · rw [show (mapLower u).frag = u.frag.map lowerStr from rfl, hf2] at hf
      cases hf
      exact qf_lower (h8 fs hf2)

theorem mapLower_idem (u : JsUrl) : mapLower (mapLower u) = mapLower u := by
  unfold mapLower
  cases u with
  | mk sc host port path q f =>
    simp only [JsUrl.mk.injEq, true_and]
    refine ⟨?_, ?_, ?_⟩
    · rw [List.map_map]
      exact List.map_congr_left fun s _ => lowerStr_idem s
    · rcases q with _ | qs
      · rfl
      · simp [lowerStr_idem]
    · rcases f with _ | fs
      · rfl
      · simp [lowerStr_idem]

theorem mapLower_proj (u : JsUrl) :
    (mapLower u).scheme = u.scheme ∧ (mapLower u).host = u.host ∧
      (mapLower u).port = u.port := ⟨rfl, rfl, rfl⟩

/-! ### Tail analysis of the serialized URL -/

theorem serializeUrl_flat (v : JsUrl) : serializeUrl v =
    (((((v.scheme ++ [47, 47]) ++ v.host) ++ serializePort v.port) ++
      serializePath v.path) ++ serializeQF 63 v.query) ++ serializeQF 35 v.frag := by
  simp [serializeUrl, List.append_assoc]

theorem getLast?_cons' (c : Nat) (l : JStr) :
    (c :: l).getLast? = (match l.getLast? with | none => some c | some x => some x) := by
  cases l with
  | nil => rfl
  | cons x xs =>
    rw [List.getLast?_cons_cons]
    rcases h : (x :: xs).getLast? with - | y
    · exact absurd h (by simp)
    · rfl

theorem dropLast_cons_ne {l : JStr} (c : Nat) (h : l ≠ []) :
    (c :: l).dropLast = c :: l.dropLast := by
  cases l with
  | nil => exact absurd rfl h
  | cons x xs => rfl

theorem serializePath_ne_nil {path : List JStr} (h : path ≠ []) :
    serializePath path ≠ [] := by
  cases path with
  | nil => exact absurd rfl h
  | cons s ss =>
    rw [serializePath_cons]
    simp

theorem serializePath_append (a b : List JStr) :
    serializePath (a ++ b) = serializePath a ++ serializePath b := by
  simp [serializePath]

theorem mem_of_getLast? {l : JStr} {c : Nat} (h : l.getLast? = some c) : c ∈ l := by
  induction l with
  | nil => cases h
  | cons a as ih =>
    cases as with
    | nil =>
      injection h with h1
      rw [← h1]
      exact List.mem_cons_self a []
    | cons b bs =>
      rw [List.getLast?_cons_cons] at h
      exact List.mem_cons_of_mem a (ih h)

theorem getLast?_cons_ne {l : JStr} (c : Nat) (h : l ≠ []) :
    (c :: l).getLast? = l.getLast? := by
  cases l with
  | nil => exact absurd rfl h
  | cons x xs => exact List.getLast?_cons_cons

theorem hostPort_not_endsSlash {v : JsUrl} (h : WFUrl v) :
    endsSlash ((v.scheme ++ [47, 47]) ++ v.host ++ serializePort v.port) = false := by
  obtain ⟨-, hne, hchar, -, -, -, -, -⟩ := h
  unfold endsSlash
  rcases hp : v.port with - | n
  · rw [show serializePort none = [] from rfl, List.append_nil,
      List.getLast?_append_of_ne_nil _ hne]
    rcases hl : v.host.getLast? with - | c
    · simp
    · have hc : c ∈ v.host := mem_of_getLast? hl
      have := isHostChar_spec.mp (List.all_eq_true.mp hchar c hc)
      simp only [decide_eq_false_iff_not, Option.some.injEq]
      omega
  · rw [show serializePort (some n) = 58 :: natToDec n from rfl,
      List.getLast?_append_of_ne_nil _ (by simp)]
    rw [getLast?_cons']
    rcases hl : (natToDec n).getLast? with - | c
    · exact absurd hl (by simpa using natToDec_ne_nil n)
    · have hc : c ∈ natToDec n := mem_of_getLast? hl
      have := natToDec_digits n c hc
      simp only [isDigit, decide_eq_true_eq] at this
      simp only [decide_eq_false_iff_not, Option.some.injEq]
      omega

theorem endsSlash_serializePath : ∀ path : List JStr, path ≠ [] →
    (∀ s ∈ path, segOk s = true) →
    decide ((serializePath path).getLast? = some 47) =
      decide (path.getLast? = some ([] : JStr))
  | [], hne, _ => absurd rfl hne
  | [s], _, hsegs => by
    rw [serializePath_cons, serializePath_nil, List.append_nil]
    rcases hs : s with - | ⟨c, cs⟩
    · rfl
    · rw [getLast?_cons_ne 47 (by simp)]
      rcases hsl : (c :: cs).getLast? with - | d
      · exact absurd hsl (by simp)
      · have hd : d ∈ c :: cs := mem_of_getLast? hsl
        have hpc := (pathChar_ne (List.all_eq_true.mp
          (segOk_pathChar (hsegs s (by simp))) d (hs ▸ hd))).1
        simp [hpc]
  | s :: t :: ts, _, hsegs => by
    rw [serializePath_cons,
      getLast?_cons_ne 47 (by simp [serializePath_ne_nil]),
      List.getLast?_append_of_ne_nil _ (serializePath_ne_nil (List.cons_ne_nil t ts)),
      endsSlash_serializePath (t :: ts) (List.cons_ne_nil t ts)
        (fun x hx => hsegs x (List.mem_cons_of_mem s hx)),
      List.getLast?_cons_cons]

/-- The serialized URL ends in a slash exactly when its last component
does: the fragment if present, else the query if present, else the last
path segment is empty. -/
theorem endsSlash_serializeUrl {v : JsUrl} (h : WFUrl v) :
    endsSlash (serializeUrl v) =
      (match v.frag, v.query with
       | some f, _ => decide (f.getLast? = some 47)
       | none, some q => decide (q.getLast? = some 47)
       | none, none => decide (v.path.getLast? = some ([] : JStr))) := by
  have hsegs := h.2.2.2.2.2.1
  have hpathne := h.2.2.2.2.1
  rw [serializeUrl_flat]
  rcases hfr : v.frag with - | f
  · rcases hq : v.query with - | q
    · rw [show serializeQF 63 none = [] from rfl, show serializeQF 35 none = [] from rfl,
        List.append_nil, List.append_nil]
      unfold endsSlash
      rw [List.getLast?_append_of_ne_nil _ (serializePath_ne_nil hpathne)]
      exact endsSlash_serializePath v.path hpathne hsegs
    · rw [show serializeQF 35 none = [] from rfl, List.append_nil,
        show serializeQF 63 (some q) = 63 :: q from rfl]
      unfold endsSlash
      rcases hqe : q with - | ⟨c, cs⟩
      · rw [List.getLast?_append_of_ne_nil _ (by simp)]
        rfl
      · rw [List.getLast?_append_of_ne_nil _ (by simp),
          getLast?_cons_ne 63 (by simp)]
  · rw [show serializeQF 35 (some f) = 35 :: f from rfl]
    unfold endsSlash
    rcases hfe : f with - | ⟨c, cs⟩
    · rw [List.getLast?_append_of_ne_nil _ (by simp)]
      rfl
    · rw [List.getLast?_append_of_ne_nil _ (by simp),
        getLast?_cons_ne 35 (by simp)]

/-! ### Shortening the serialized URL by one character -/

theorem dropLast_serializeUrl_frag {sc host : JStr} {port : Option Nat}
    {path : List JStr} {q : Option JStr} {f : JStr} (hne : f ≠ []) :
    (serializeUrl ⟨sc, host, port, path, q, some f⟩).dropLast =
      serializeUrl ⟨sc, host, port, path, q, some f.dropLast⟩ := by
  rw [serializeUrl_flat, serializeUrl_flat]
  rw [show serializeQF 35 (some f) = 35 :: f from rfl,
    show serializeQF 35 (some f.dropLast) = 35 :: f.dropLast from rfl,
    List.dropLast_append_of_ne_nil _ (by simp), dropLast_cons_ne 35 hne]

theorem dropLast_serializeUrl_query {sc host : JStr} {port : Option Nat}
    {path : List JStr} {q : JStr} (hne : q ≠ []) :
    (serializeUrl ⟨sc, host, port, path, some q, none⟩).dropLast =
      serializeUrl ⟨sc, host, port, path, some q.dropLast, none⟩ := by
  rw [serializeUrl_flat, serializeUrl_flat]
  simp only [show serializeQF 35 none = ([] : JStr) from rfl, List.append_nil]
  rw [show serializeQF 63 (some q) = 63 :: q from rfl,
    show serializeQF 63 (some q.dropLast) = 63 :: q.dropLast from rfl,
    List.dropLast_append_of_ne_nil _ (by simp), dropLast_cons_ne 63 hne]

theorem dropLast_serializeUrl_path {sc host : JStr} {port : Option Nat}
    {ps : List JStr} :
    (serializeUrl ⟨sc, host, port, ps ++ [[]], none, none⟩).dropLast =
      serializeUrl ⟨sc, host, port, ps, none, none⟩ := by
  rw [serializeUrl_flat, serializeUrl_flat]
  simp only [show serializeQF 35 none = ([] : JStr) from rfl,
    show serializeQF 63 none = ([] : JStr) from rfl, List.append_nil]
  rw [serializePath_append, show serializePath [[]] = [47] from rfl,
    ← List.append_assoc, List.dropLast_concat]

theorem rootStr_flat (v : JsUrl) :
    rootStr v = (v.scheme ++ [47, 47]) ++ v.host ++ serializePort v.port := by
  simp [rootStr, List.append_assoc]

theorem endsSlash_rootStr {v : JsUrl} (h : WFUrl v) :
    endsSlash (rootStr v) = false := by
  rw [rootStr_flat]
  exact hostPort_not_endsSlash h

theorem serializeUrl_root (sc host : JStr) (port : Option Nat) :
    serializeUrl ⟨sc, host, port, [[]], none, none⟩ =
      rootStr ⟨sc, host, port, [[]], none, none⟩ ++ [47] := by
  rw [serializeUrl_flat, rootStr_flat]
  simp only [show serializeQF 35 none = ([] : JStr) from rfl,
    show serializeQF 63 none = ([] : JStr) from rfl, List.append_nil,
    show serializePath [[]] = [47] from rfl]

theorem lowerStr_rootStr {v : JsUrl} (h : WFUrl v) :
    lowerStr (rootStr v) = rootStr v := by
  obtain ⟨hscheme, -, hchar, -, -, -, -, -⟩ := h
  unfold rootStr
  rw [lowerStr_append, lowerStr_append, lowerStr_append]
  have hs : lowerStr v.scheme = v.scheme := by
    rcases hscheme with h | h <;> rw [h] <;> rfl
  rw [hs, show lowerStr [47, 47] = [47, 47] from rfl, lowerStr_host hchar,
    lowerStr_serializePort]

theorem hostPort_authChars {host : JStr} (hchar : host.all isHostChar = true)
    (port : Option Nat) :
    ∀ c ∈ host ++ serializePort port, (!isAuthEnd c) = true := by
  intro c hc
  rcases List.mem_append.mp hc with h1 | h2
  · rw [hostChar_not_authEnd (List.all_eq_true.mp hchar c h1)]
    rfl
  · rcases port with _ | n
    · cases h2
    · rcases List.mem_cons.mp h2 with rfl | h3
      · rfl
      · rw [digit_not_authEnd (natToDec_digits n c h3)]
        rfl

theorem parseAfterScheme_root (sc : JStr) (dp : Nat) (host : JStr)
    (port : Option Nat) (hhost : host ≠ [])
    (hchar : host.all isHostChar = true)
    (hport : ∀ n, port = some n → n ≤ 65535 ∧ n ≠ dp) :
    parseAfterScheme sc dp (host ++ serializePort port) =
      some ⟨sc, host, port, [[]], none, none⟩ := by
  have hauthall := hostPort_authChars hchar port
  have hsplit := takeWhile_dropWhile_append hauthall (b := []) (Or.inl rfl)
  rw [List.append_nil] at hsplit
  unfold parseAfterScheme
  rw [hsplit.1, hsplit.2, parseAuthority_roundtrip host port dp hhost hchar hport]
  rfl

theorem parseUrl_rootStr {v : JsUrl} (hWF : WFUrl v) (hroot : v.path = [[]])
    (hq : v.query = none) (hf : v.frag = none) :
    parseUrl (rootStr v) = some v := by
  obtain ⟨hscheme, hhost, hchar, hport, -, -, -, -⟩ := hWF
  obtain ⟨sc, host, port, path, q, f⟩ := v
  simp only at hscheme hhost hchar hport hroot hq hf
  subst hroot
  subst hq
  subst hf
  rcases hscheme with rfl | rfl
  · have hport80 : ∀ n, port = some n → n ≤ 65535 ∧ n ≠ 80 := by
      intro n hn
      have := hport n hn
      simpa using this
    show parseUrl (httpPref ++ (host ++ serializePort port)) = _
    unfold parseUrl
    rw [dropPref_append]
    exact parseAfterScheme_root schemeHttp 80 host port hhost hchar hport80
  · have hport443 : ∀ n, port = some n → n ≤ 65535 ∧ n ≠ 443 := by
      intro n hn
      have := hport n hn
      rw [if_neg (by decide)] at this
      exact this
    show parseUrl (httpsPref ++ (host ++ serializePort port)) = _
    unfold parseUrl
    have h1 : dropPref httpPref (httpsPref ++ (host ++ serializePort port)) =
        none := rfl
    rw [h1, dropPref_append]
    exact parseAfterScheme_root schemeHttps 443 host port hhost hchar hport443

/-! ### Well-formedness of every parse result -/

theorem splitOnSlash_ne_nil (s : JStr) : splitOnSlash s ≠ [] := by
  cases s with
  | nil => simp [splitOnSlash]
  | cons c cs =>
    simp only [splitOnSlash]
    split
    · simp
    · split <;> simp

theorem parseAuthority_WF {auth : JStr} {dp : Nat} {host : JStr}
    {port : Option Nat} (h : parseAuthority auth dp = some (host, port)) :
    host ≠ [] ∧ host.all isHostChar = true ∧
      ∀ n, port = some n → n ≤ 65535 ∧ n ≠ dp := by
  unfold parseAuthority at h
  simp only at h
  split at h
  · cases h
  · split at h
    · cases h
    · next h1 h2 =>
      have hchar : (auth.takeWhile fun c => decide (c ≠ 58)).all isHostChar = true := by
        cases hb : (auth.takeWhile fun c => decide (c ≠ 58)).all isHostChar
        · exact absurd hb h2
        · rfl
      split at h
      · injection h with h3
        injection h3 with h4 h5
        subst h4
        subst h5
        exact ⟨h1, hchar, fun n hn => nomatch hn⟩
      · next ds =>
        split at h
        · injection h with h3
          injection h3 with h4 h5
          subst h4
          subst h5
          exact ⟨h1, hchar, fun n hn => nomatch hn⟩
        · split at h
          · cases h
          · split at h
            · cases h
            · split at h
              · injection h with h3
                injection h3 with h4 h5
                subst h4
                subst h5
                exact ⟨h1, hchar, fun n hn => nomatch hn⟩
              · next h65 hdp =>
                injection h with h3
                injection h3 with h4 h5
                subst h4
                subst h5
                refine ⟨h1, hchar, fun n hn => ?_⟩
                injection hn with hn
                subst hn
                exact ⟨by omega, hdp⟩

theorem parsePath_WF {raw : JStr} {path : List JStr}
    (h : parsePath raw = some path) :
    path ≠ [] ∧ ∀ s ∈ path, segOk s = true := by
  cases raw with
  | nil =>
    simp only [parsePath] at h
    injection h with h1
    subst h1
    refine ⟨by simp, fun s hs => ?_⟩
    rw [List.mem_singleton] at hs
    subst hs
    decide
  | cons c cs =>
    simp only [parsePath] at h
    split at h
    · split at h
      · next hall =>
        injection h with h1
        subst h1
        exact ⟨splitOnSlash_ne_nil cs, List.all_eq_true.mp hall⟩
      · cases h
    · cases h

theorem parseQF_WF {rest : JStr} {q f : Option JStr}
    (h : parseQF rest = some (q, f)) :
    (∀ qs, q = some qs → qs.all isQFChar = true) ∧
      (∀ fs, f = some fs → fs.all isQFChar = true) := by
  cases rest with
  | nil =>
    simp only [parseQF] at h
    injection h with h1
    injection h1 with h2 h3
    subst h2
    subst h3
    exact ⟨fun qs hq => (nomatch hq), fun fs hf => nomatch hf⟩
  | cons c cs =>
    simp only [parseQF] at h
    split at h
    · split at h
      · cases h
      · next hqok =>
        have hq : (cs.takeWhile fun d => decide (d ≠ 35)).all isQFChar = true := by
          cases hb : (cs.takeWhile fun d => decide (d ≠ 35)).all isQFChar
          · exact absurd hb hqok
          · rfl
        split at h
        · injection h with h1
          injection h1 with h2 h3
          subst h2
          subst h3
          refine ⟨fun qs hqs => ?_, fun fs hf => nomatch hf⟩
          injection hqs with hqs
          subst hqs
          exact hq
        · split at h
          · next hfok =>
            injection h with h1
            injection h1 with h2 h3
            subst h2
            subst h3
            refine ⟨fun qs hqs => ?_, fun fs hfs => ?_⟩
            · injection hqs with hqs
              subst hqs
              exact hq
            · injection hfs with hfs
              subst hfs
              exact hfok
          · cases h
    · split at h
      · split at h
        · next hfok =>
          injection h with h1
          injection h1 with h2 h3
          subst h2
          subst h3
          refine ⟨fun qs hqs => (nomatch hqs), fun fs hfs => ?_⟩
          injection hfs with hfs
          subst hfs
          exact hfok
        · cases h
      · cases h

theorem parseAfterScheme_WF {sc : JStr} {dp : Nat} {rest : JStr} {u : JsUrl}
    (hsc : sc = schemeHttp ∨ sc = schemeHttps)
    (hdp : dp = if sc = schemeHttp then 80 else 443)
    (h : parseAfterScheme sc dp rest = some u) : WFUrl u := by
  unfold parseAfterScheme at h
  split at h
  · cases h
  · next host port hauth =>
    split at h
    · cases h
    · next path hpath =>
      split at h
      · cases h
      · next q f hqf =>
        injection h with h1
        subst h1
        obtain ⟨hh1, hh2, hh3⟩ := parseAuthority_WF hauth
        obtain ⟨hp1, hp2⟩ := parsePath_WF hpath
        obtain ⟨hq1, hf1⟩ := parseQF_WF hqf
        refine ⟨hsc, hh1, hh2, fun n hn => ?_, hp1, hp2, hq1, hf1⟩
        have := hh3 n hn
        rw [← hdp]
        exact this

theorem parseUrl_WF {s : JStr} {u : JsUrl} (h : parseUrl s = some u) : WFUrl u := by
  unfold parseUrl at h
  split at h
  · exact parseAfterScheme_WF (Or.inl rfl) (by decide) h
  · split at h
    · exact parseAfterScheme_WF (Or.inr rfl) (by decide) h
    · cases h

/-! ### Helpers for the idempotence argument -/

theorem parseUrl_some_mem58 {s : JStr} {u : JsUrl} (h : parseUrl s = some u) :
    58 ∈ s := by
  unfold parseUrl at h
  split at h
  · next heq =>
    rw [dropPref_eq_some heq]
    exact List.mem_append_left _ (by decide)
  · split at h
    · next heq =>
      rw [dropPref_eq_some heq]
      exact List.mem_append_left _ (by decide)
    · cases h

theorem mem_preStrip {st : UrlMatchSettings} {x : JStr} {c : Nat}
    (h : c ∈ preStrip st x) : c ∈ x := by
  unfold preStrip at h
  split at h
  · unfold stripTrailingSlashes at h
    rw [List.mem_reverse] at h
    rw [← List.mem_reverse]
    exact (List.dropWhile_sublist _).subset h
  · exact h

theorem stripWww_hostChar {h : JStr} (hc : h.all isHostChar = true) :
    (stripWww h).all isHostChar = true := by
  unfold stripWww
  split
  · next rest heq =>
    rw [dropPref_eq_some heq, List.all_append] at hc
    exact (Bool.and_eq_true_iff.mp hc).2
  · exact hc

theorem dropDefaultPort_some {u : JsUrl} {n : Nat}
    (h : (dropDefaultPort u).port = some n) :
    dropDefaultPort u = u ∧ u.port = some n ∧
      ¬((u.scheme = schemeHttp ∧ portStr u.port = natToDec 80) ∨
        (u.scheme = schemeHttps ∧ portStr u.port = natToDec 443)) := by
  unfold dropDefaultPort at h
  split at h
  · cases h
  · next hg =>
    exact ⟨by unfold dropDefaultPort; rw [if_neg hg], h, hg⟩

theorem natToDec_inj {a b : Nat} (h : natToDec a = natToDec b) : a = b := by
  have := decToNat_natToDec a
  rw [h, decToNat_natToDec b] at this
  exact this.symm

theorem dropDefaultPort_transfer {sc host : JStr} {port : Option Nat}
    {p1 p2 : List JStr} {q1 q2 : Option JStr} {f1 f2 : Option JStr}
    (h : dropDefaultPort ⟨sc, host, port, p1, q1, f1⟩ = ⟨sc, host, port, p1, q1, f1⟩) :
    dropDefaultPort ⟨sc, host, port, p2, q2, f2⟩ = ⟨sc, host, port, p2, q2, f2⟩ := by
  unfold dropDefaultPort at h ⊢
  split at h
  · have hpn : port = none := by
      have := congrArg JsUrl.port h
      simpa using this.symm
    subst hpn
    split
    · rfl
    · rfl
  · next hg =>
    rw [if_neg]
    exact fun hc => hg hc

theorem dropDefaultPort_mapLower {v : JsUrl} (h : dropDefaultPort v = v) :
    dropDefaultPort (mapLower v) = mapLower v := by
  obtain ⟨sc, host, port, path, q, f⟩ := v
  show dropDefaultPort ⟨sc, host, port, path.map lowerStr, q.map lowerStr,
    f.map lowerStr⟩ = _
  exact dropDefaultPort_transfer h

/-- The transform steps fix a URL whose scheme, fragment, port and host are
already in final form (the forum-reply rule disabled). -/
theorem transformUrl_fix (st : UrlMatchSettings) (v : JsUrl)
    (hidp : st.ignoreDiscoursePostNumber = false)
    (hproto : st.ignoreProtocol = true → v.scheme = schemeHttps)
    (hhash : st.ignoreHash = true → v.frag = none)
    (hport : dropDefaultPort v = v)
    (hwww : st.ignoreWww = true → stripWww v.host = v.host) :
    transformUrl st v = v := by
  unfold transformUrl
  have h1 : stepProtocol st v = v := by
    unfold stepProtocol
    rw [if_neg]
    rintro ⟨hip, hsc⟩
    rw [hproto hip] at hsc
    exact (by decide : ¬ schemeHttps = schemeHttp) hsc
  have h2 : stepHash st v = v := by
    cases hih : st.ignoreHash
    · exact stepHash_id st v hih
    · exact stepHash_frag st v (hhash hih)
  have h4 : stepWww st v = v := by
    cases hiw : st.ignoreWww
    · exact stepWww_id st v hiw
    · exact stepWww_fix st v (hwww hiw)
  rw [h1, h2, stepDiscourse_id st v hidp, h4, hport]

/-- One full `normalizeUrl` pass fixes the serialization of a URL already
in final form. -/
theorem serialize_fixed (st : UrlMatchSettings) (v : JsUrl) (hWF : WFUrl v)
    (hic : st.ignoreCase = true → mapLower v = v)
    (hidp : st.ignoreDiscoursePostNumber = false)
    (hproto : st.ignoreProtocol = true → v.scheme = schemeHttps)
    (hhash : st.ignoreHash = true → v.frag = none)
    (hport : dropDefaultPort v = v)
    (hwww : st.ignoreWww = true → stripWww v.host = v.host)
    (hslash : st.ignoreTrailingSlash = true → endsSlash (serializeUrl v) = false) :
    normalizeUrl st (serializeUrl v) = serializeUrl v := by
  unfold normalizeUrl
  have hpre : preStrip st (serializeUrl v) = serializeUrl v := by
    unfold preStrip
    split
    · next hits => exact stripTrailingSlashes_id (hslash hits)
    · rfl
  rw [hpre, parseUrl_serialize hWF]
  show caseFold st (postSlash st (serializeUrl (transformUrl st v))) = serializeUrl v
  rw [transformUrl_fix st v hidp hproto hhash hport hwww]
  have hpost : postSlash st (serializeUrl v) = serializeUrl v := by
    unfold postSlash
    rw [if_neg]
    rintro ⟨hits, hes⟩
    rw [hslash hits] at hes
    cases hes
  rw [hpost]
  unfold caseFold
  split
  · next hic2 => rw [lowerStr_serializeUrl hWF, hic hic2]
  · rfl

/-- A second `normalizeUrl` pass fixes the case-folded serialization of a
URL already in final form. -/
theorem second_pass_fixed (st : UrlMatchSettings) (v : JsUrl) (hWF : WFUrl v)
    (hidp : st.ignoreDiscoursePostNumber = false)
    (hproto : st.ignoreProtocol = true → v.scheme = schemeHttps)
    (hhash : st.ignoreHash = true → v.frag = none)
    (hport : dropDefaultPort v = v)
    (hwww : st.ignoreWww = true → stripWww v.host = v.host)
    (hslash : st.ignoreTrailingSlash = true →
      endsSlash (caseFold st (serializeUrl v)) = false) :
    normalizeUrl st (caseFold st (serializeUrl v)) =
      caseFold st (serializeUrl v) := by
  cases hic : st.ignoreCase
  · have hcf : caseFold st (serializeUrl v) = serializeUrl v := by
      unfold caseFold
      rw [if_neg (by simp [hic])]
    rw [hcf] at hslash ⊢
    exact serialize_fixed st v hWF (fun h => absurd h (by simp [hic])) hidp
      hproto hhash hport hwww hslash
  · have hcf : caseFold st (serializeUrl v) = serializeUrl (mapLower v) := by
      unfold caseFold
      rw [if_pos hic]
      exact lowerStr_serializeUrl hWF
    rw [hcf] at hslash ⊢
    refine serialize_fixed st (mapLower v) (mapLower_WF hWF)
      (fun _ => mapLower_idem v) hidp ?_ ?_
      (dropDefaultPort_mapLower hport) ?_ hslash
    · intro h
      show v.scheme = schemeHttps
      exact hproto h
    · intro h
      show v.frag.map lowerStr = none
      rw [hhash h]
      rfl
    · intro h
      show stripWww v.host = v.host
      exact hwww h

/-- A second `normalizeUrl` pass fixes a serialized root URL whose
trailing slash the first pass removed. -/
theorem second_pass_fixed_root (st : UrlMatchSettings) (v : JsUrl)
    (hWF : WFUrl v) (hroot : v.path = [[]]) (hq : v.query = none)
    (hf : v.frag = none)
    (hidp : st.ignoreDiscoursePostNumber = false)
    (hproto : st.ignoreProtocol = true → v.scheme = schemeHttps)
    (hport : dropDefaultPort v = v)
    (hwww : st.ignoreWww = true → stripWww v.host = v.host)
    (hits : st.ignoreTrailingSlash = true) :
    normalizeUrl st (caseFold st (rootStr v)) = caseFold st (rootStr v) := by
  have hcf : caseFold st (rootStr v) = rootStr v := by
    unfold caseFold
    split
    · exact lowerStr_rootStr hWF
    · rfl
  rw [hcf]
  unfold normalizeUrl
  have hpre : preStrip st (rootStr v) = rootStr v := by
    unfold preStrip
    rw [if_pos hits]
    exact stripTrailingSlashes_id (endsSlash_rootStr hWF)
  rw [hpre, parseUrl_rootStr hWF hroot hq hf]
  show caseFold st (postSlash st (serializeUrl (transformUrl st v))) = rootStr v
  rw [transformUrl_fix st v hidp hproto (fun _ => hf) hport hwww]
  obtain ⟨sc, host, port, path, q0, f0⟩ := v
  simp only at hroot hq hf
  subst hroot
  subst hq
  subst hf
  rw [serializeUrl_root]
  have hpost : postSlash st (rootStr ⟨sc, host, port, [[]], none, none⟩ ++ [47]) =
      rootStr ⟨sc, host, port, [[]], none, none⟩ := by
    unfold postSlash
    rw [if_pos ⟨hits, by simp [endsSlash]⟩, List.dropLast_concat]
  rw [hpost]
  exact hcf

theorem dropLast_serializeUrl_root (sc host : JStr) (port : Option Nat) :
    (serializeUrl ⟨sc, host, port, [[]], none, none⟩).dropLast =
      rootStr ⟨sc, host, port, [[]], none, none⟩ := by
  rw [serializeUrl_root, List.dropLast_concat]

/-- A second pass fixes the full first-pass output (case fold after the
trailing-slash removal) of a URL in final form. -/
theorem second_pass_general (st : UrlMatchSettings) (v : JsUrl) (hWF : WFUrl v)
    (hidp : st.ignoreDiscoursePostNumber = false)
    (hproto : st.ignoreProtocol = true → v.scheme = schemeHttps)
    (hhash : st.ignoreHash = true → v.frag = none)
    (hport : dropDefaultPort v = v)
    (hwww : st.ignoreWww = true → stripWww v.host = v.host)
    (hslash : st.ignoreTrailingSlash = true →
      endsSlash (caseFold st (postSlash st (serializeUrl v))) = false) :
    normalizeUrl st (caseFold st (postSlash st (serializeUrl v))) =
      caseFold st (postSlash st (serializeUrl v)) := by
  by_cases hps : st.ignoreTrailingSlash = true ∧ endsSlash (serializeUrl v) = true
  · obtain ⟨hits, hes0⟩ := hps
    have hpost : postSlash st (serializeUrl v) = (serializeUrl v).dropLast := by
      unfold postSlash
      rw [if_pos ⟨hits, hes0⟩]
    rw [hpost] at hslash ⊢
    rw [endsSlash_serializeUrl hWF] at hes0
    obtain ⟨sc, host, port, path, q, f⟩ := v
    rcases f with - | fs
    · rcases q with - | qs
      · have hlast : path.getLast? = some ([] : JStr) := by simpa using hes0
        have hne : path ≠ [] := hWF.2.2.2.2.1
        have hsplitp : path.dropLast ++ [([] : JStr)] = path := by
          have h1 := List.dropLast_append_getLast hne
          have h2 : path.getLast hne = ([] : JStr) := by
            have h3 := List.getLast?_eq_getLast path hne
            rw [h3] at hlast
            exact Option.some.inj hlast
          rw [h2] at h1
          exact h1
        obtain ⟨ps, hps2⟩ : ∃ ps, path = ps ++ [([] : JStr)] :=
          ⟨path.dropLast, hsplitp.symm⟩
        subst hps2
        rcases ps with - | ⟨p1, prest⟩
        · simp only [List.nil_append] at hWF hproto hport hwww hslash ⊢
          rw [dropLast_serializeUrl_root] at hslash ⊢
          exact second_pass_fixed_root st ⟨sc, host, port, [[]], none, none⟩
            hWF rfl rfl rfl hidp hproto hport hwww hits
        · rw [dropLast_serializeUrl_path] at hslash ⊢
          refine second_pass_fixed st ⟨sc, host, port, p1 :: prest, none, none⟩
            ⟨hWF.1, hWF.2.1, hWF.2.2.1, hWF.2.2.2.1, by simp,
              (fun s hs => hWF.2.2.2.2.2.1 s (List.mem_append_left _ hs)),
              (fun q0 hq0 => nomatch hq0), fun f0 hf0 => nomatch hf0⟩
            hidp (fun h => hproto h) (fun _ => rfl)
            (dropDefaultPort_transfer hport) (fun h => hwww h) hslash
      · have hlast : qs.getLast? = some 47 := by simpa using hes0
        have hqne : qs ≠ [] := by
          rintro rfl
          exact (nomatch hlast)
        rw [dropLast_serializeUrl_query hqne] at hslash ⊢
        refine second_pass_fixed st ⟨sc, host, port, path, some qs.dropLast, none⟩
          ⟨hWF.1, hWF.2.1, hWF.2.2.1, hWF.2.2.2.1, hWF.2.2.2.2.1,
            hWF.2.2.2.2.2.1, ?_, fun f0 hf0 => nomatch hf0⟩
          hidp (fun h => hproto h) (fun _ => rfl)
          (dropDefaultPort_transfer hport) (fun h => hwww h) hslash
        intro q0 hq0
        injection hq0 with hq0
        subst hq0
        have hall := hWF.2.2.2.2.2.2.1 qs rfl
        rw [List.all_eq_true] at hall ⊢
        exact fun c hc => hall c ((List.dropLast_sublist qs).subset hc)
    · have hlast : fs.getLast? = some 47 := by simpa using hes0
      have hfne : fs ≠ [] := by
        rintro rfl
        exact (nomatch hlast)
      rw [dropLast_serializeUrl_frag hfne] at hslash ⊢
      refine second_pass_fixed st ⟨sc, host, port, path, q, some fs.dropLast⟩
        ⟨hWF.1, hWF.2.1, hWF.2.2.1, hWF.2.2.2.1, hWF.2.2.2.2.1,
          hWF.2.2.2.2.2.1, hWF.2.2.2.2.2.2.1, ?_⟩
        hidp (fun h => hproto h) (fun h => absurd (hhash h) (by simp))
        (dropDefaultPort_transfer hport) (fun h => hwww h) hslash
      intro f0 hf0
      injection hf0 with hf0
      subst hf0
      have hall := hWF.2.2.2.2.2.2.2 fs rfl
      rw [List.all_eq_true] at hall ⊢
      exact fun c hc => hall c ((List.dropLast_sublist fs).subset hc)
  · have hpost : postSlash st (serializeUrl v) = serializeUrl v := by
      unfold postSlash
      rw [if_neg hps]
    rw [hpost] at hslash ⊢
    exact second_pass_fixed st v hWF hidp hproto hhash hport hwww hslash

/-- The output of the transform steps (forum-reply rule disabled, one
www-strip stable on the host) is well-formed and in final form. -/
theorem transformUrl_facts (st : UrlMatchSettings) (u : JsUrl) (hWF : WFUrl u)
    (hidp : st.ignoreDiscoursePostNumber = false)
    (hww : st.ignoreWww = true → stripWww (stripWww u.host) = stripWww u.host ∧
      stripWww u.host ≠ []) :
    WFUrl (transformUrl st u) ∧
      (st.ignoreProtocol = true → (transformUrl st u).scheme = schemeHttps) ∧
      (st.ignoreHash = true → (transformUrl st u).frag = none) ∧
      dropDefaultPort (transformUrl st u) = transformUrl st u ∧
      (st.ignoreWww = true → stripWww (transformUrl st u).host =
        (transformUrl st u).host) := by
  obtain ⟨hsc, hhne, hhch, hpo, hpne, hsegs, hq, hf⟩ := hWF
  have htr : transformUrl st u =
      dropDefaultPort (stepWww st (stepHash st (stepProtocol st u))) := by
    unfold transformUrl
    rw [stepDiscourse_id st _ hidp]
  rw [htr]
  have h1 := stepProtocol_proj st u
  have h2 := stepHash_proj st (stepProtocol st u)
  have h4 := stepWww_proj st (stepHash st (stepProtocol st u))
  have hd := dropDefaultPort_proj (stepWww st (stepHash st (stepProtocol st u)))
  have h2hu : (stepHash st (stepProtocol st u)).host = u.host := by
    rw [h2.2.1, h1.1]
  have hscm : (stepWww st (stepHash st (stepProtocol st u))).scheme =
      (stepProtocol st u).scheme := by
    rw [h4.1, h2.1]
  have hmem4 : (stepWww st (stepHash st (stepProtocol st u))).scheme = schemeHttp ∨
      (stepWww st (stepHash st (stepProtocol st u))).scheme = schemeHttps := by
    rw [hscm]
    exact stepProtocol_scheme_mem st u hsc
  have hhost4 : st.ignoreWww = true →
      (stepWww st (stepHash st (stepProtocol st u))).host = stripWww u.host := by
    intro hiw
    rw [stepWww_host st _ hiw (by rw [h2hu]; exact (hww hiw).2), h2hu]
  have hhost4' : st.ignoreWww = false →
      (stepWww st (stepHash st (stepProtocol st u))).host = u.host := by
    intro hiw
    rw [stepWww_id st _ hiw, h2hu]
  have hport4 : (stepWww st (stepHash st (stepProtocol st u))).port = u.port := by
    rw [h4.2.1, h2.2.2.1, h1.2.1]
  have hpath4 : (stepWww st (stepHash st (stepProtocol st u))).path = u.path := by
    rw [h4.2.2.1, h2.2.2.2.1, h1.2.2.1]
  have hq4 : (stepWww st (stepHash st (stepProtocol st u))).query = u.query := by
    rw [h4.2.2.2.1, h2.2.2.2.2, h1.2.2.2.1]
  have hfrag2t : st.ignoreHash = true →
      (stepWww st (stepHash st (stepProtocol st u))).frag = none := by
    intro h
    rw [h4.2.2.2.2]
    exact stepHash_frag_none st _ h
  have hfrag2f : st.ignoreHash = false →
      (stepWww st (stepHash st (stepProtocol st u))).frag = u.frag := by
    intro h
    rw [h4.2.2.2.2, stepHash_id st _ h, h1.2.2.2.2]
  refine ⟨⟨?_, ?_, ?_, ?_, ?_, ?_, ?_, ?_⟩, ?_, ?_, dropDefaultPort_idem _, ?_⟩
  · rw [hd.1]
    exact hmem4
  · rw [hd.2.1]
    cases hiw : st.ignoreWww
    · rw [hhost4' hiw]
      exact hhne
    · rw [hhost4 hiw]
      exact (hww hiw).2
  · rw [hd.2.1]
    cases hiw : st.ignoreWww
    · rw [hhost4' hiw]
      exact hhch
    · rw [hhost4 hiw]
      exact stripWww_hostChar hhch
  · intro n hn
    obtain ⟨heq, hp4, hguard⟩ := dropDefaultPort_some hn
    have hnu : u.port = some n := by
      rw [← hport4]
      exact hp4
    refine ⟨(hpo n hnu).1, ?_⟩
    rw [hd.1]
    rcases hmem4 with hsh | hsh
    · rw [hsh, if_pos rfl]
      intro hn80
      subst hn80
      exact hguard (Or.inl ⟨hsh, by rw [hp4]; rfl⟩)
    · rw [hsh, if_neg (by decide)]
      intro hn443
      subst hn443
      exact hguard (Or.inr ⟨hsh, by rw [hp4]; rfl⟩)
  · rw [hd.2.2.1, hpath4]
    exact hpne
  · rw [hd.2.2.1, hpath4]
    exact hsegs
  · rw [hd.2.2.2.1, hq4]
    exact hq
  · intro f0 hf0
    rw [hd.2.2.2.2] at hf0
    cases hih : st.ignoreHash
    · rw [hfrag2f hih] at hf0
      exact hf f0 hf0
    · rw [hfrag2t hih] at hf0
      cases hf0
  · intro hip
    rw [hd.1, hscm]
    exact stepProtocol_scheme_https st u hip hsc
  · intro hih
    rw [hd.2.2.2.2]
    exact hfrag2t hih
  · intro hiw
    rw [hd.2.1, hhost4 hiw]
    exact (hww hiw).1

/-- C5 (amended): on the modelled fragment, with the forum-reply path rule
(`ignoreDiscoursePostNumber`) disabled, the one-pass `www.`-strip already
stable on the parsed host, and — when trailing slashes are ignored — the
first result not ending in a slash, `normalizeUrl` is idempotent: a second
application returns the first result unchanged. -/
theorem normalizeUrl_idempotent_amended (st : UrlMatchSettings) (x : JStr)
    (hfrag : inFragmentB st x = true)
    (hidp : st.ignoreDiscoursePostNumber = false)
    (hwww : wwwStableB st x = true)
    (hslash : st.ignoreTrailingSlash = true →
      endsSlash (normalizeUrl st x) = false) :
    normalizeUrl st (normalizeUrl st x) = normalizeUrl st x := by
  rcases hp : parseUrl (preStrip st x) with - | u0
  · have hx : normalizeUrl st x = caseFold st x := by
      unfold normalizeUrl
      rw [hp]
    unfold inFragmentB at hfrag
    rw [hp] at hfrag
    simp only [Option.isSome_none, Bool.false_or, Bool.and_eq_true,
      decide_eq_true_eq] at hfrag
    obtain ⟨h58, -⟩ := hfrag
    cases hic : st.ignoreCase
    · have hcf : caseFold st x = x := by
        unfold caseFold
        rw [if_neg (by simp [hic])]
      rw [hx, hcf]
      exact hx.trans hcf
    · have hcf : caseFold st x = lowerStr x := by
        unfold caseFold
        rw [if_pos hic]
      rw [hx, hcf]
      have hd58 : ∀ c, lowerChar c = 58 ↔ c = 58 := by
        intro c
        unfold lowerChar
        split_ifs with h
        · constructor <;> intro hh <;> omega
        · exact Iff.rfl
      have h58l : 58 ∉ lowerStr x := mem_lowerStr_ne hd58 h58
      have h58p : 58 ∉ preStrip st (lowerStr x) := fun hm => h58l (mem_preStrip hm)
      have hpl : parseUrl (preStrip st (lowerStr x)) = none := by
        rcases hq2 : parseUrl (preStrip st (lowerStr x)) with - | u1
        · rfl
        · exact absurd (parseUrl_some_mem58 hq2) h58p
      unfold normalizeUrl
      rw [hpl]
      unfold caseFold
      rw [if_pos hic]
      exact lowerStr_idem x
  · have hx : normalizeUrl st x =
        caseFold st (postSlash st (serializeUrl (transformUrl st u0))) := by
      unfold normalizeUrl
      rw [hp]
    have hWF0 : WFUrl u0 := parseUrl_WF hp
    have hww : st.ignoreWww = true →
        stripWww (stripWww u0.host) = stripWww u0.host ∧
          stripWww u0.host ≠ [] := by
      intro hiw
      unfold wwwStableB at hwww
      rw [hp, hiw] at hwww
      simpa using hwww
    obtain ⟨hWFv, hproto, hhash, hportv, hwwwv⟩ :=
      transformUrl_facts st u0 hWF0 hidp hww
    rw [hx]
    exact second_pass_general st (transformUrl st u0) hWFv hidp hproto hhash
      hportv hwwwv (fun h => by rw [← hx]; exact hslash h)

/-- Witness for the amended C5 theorem: with every flag but the forum-reply
rule enabled and the input `https://a.com/`, the hypotheses hold and a
second `normalizeUrl` returns the first result unchanged. -/
theorem normalizeUrl_idempotent_amended_witness :
    (inFragmentB ⟨true, true, true, true, true, false⟩
        [104, 116, 116, 112, 115, 58, 47, 47, 97, 46, 99, 111, 109, 47] = true ∧
      wwwStableB ⟨true, true, true, true, true, false⟩
        [104, 116, 116, 112, 115, 58, 47, 47, 97, 46, 99, 111, 109, 47] = true) ∧
      normalizeUrl ⟨true, true, true, true, true, false⟩
          (normalizeUrl ⟨true, true, true, true, true, false⟩
            [104, 116, 116, 112, 115, 58, 47, 47, 97, 46, 99, 111, 109, 47]) =
        normalizeUrl ⟨true, true, true, true, true, false⟩
          [104, 116, 116, 112, 115, 58, 47, 47, 97, 46, 99, 111, 109, 47] :=
  ⟨⟨by decide, by decide⟩,
    normalizeUrl_idempotent_amended ⟨true, true, true, true, true, false⟩
      [104, 116, 116, 112, 115, 58, 47, 47, 97, 46, 99, 111, 109, 47]
      (by decide) rfl (by decide) (fun _ => by decide)⟩

end BookmarksCheck
